import Mathlib

/-!
# Verification of the pyCHomP2 discrete-Morse engine

Shallow embedding of the core of the pyCHomP2 repository
(`src/pychomp/_chomp/include/`): chains over the two-element field,
the abstract graded-complex capability, `MorseComplex::flow`,
`GenericMorseMatching`, `CubicalMorseMatching::mate_`, and the
fixed-point reducers `Homology` / `ConnectionMatrix`.

Conventions used throughout:

* A `Chain` (`Chain.h`, not in the source tree; modelled from the spec,
  section 3) is a finite set of cell identifiers; `+=` is symmetric
  difference, written `∆` here.
* Cell identifiers are natural numbers; the C++ `Integer` type
  (`Integer.h`, not in the source tree) is modelled as `ℤ` where a value
  can be the sentinel `-1`, and as `ℕ` where it is always a cell id.
* Every loop of the source is embedded as structural recursion on an
  explicit fuel argument, so that all definitions compute.
-/

open scoped symmDiff

namespace PyCHomP

/-- Symmetric difference on finsets of cells is commutative (needed to fold
the GF(2) boundary over a chain). -/
instance : Std.Commutative (fun (s t : Finset ℕ) => s ∆ t) :=
  ⟨fun _ _ => symmDiff_comm _ _⟩

/-- Symmetric difference on finsets of cells is associative (needed to fold
the GF(2) boundary over a chain). -/
instance : Std.Associative (fun (s t : Finset ℕ) => s ∆ t) :=
  ⟨fun _ _ _ => symmDiff_assoc _ _ _⟩

/-- GF(2)-linear extension of a cell-wise map `f` to chains: the fold of
symmetric difference over the chain.  This is the semantics of loops of the
form `for (auto x : c) result += f(x);` as in `MorseComplex::boundary`
(MorseComplex.h, lines 62-66). -/
def chainExt (f : ℕ → Finset ℕ) (c : Finset ℕ) : Finset ℕ :=
  Finset.fold (fun s t => s ∆ t) ∅ f c

theorem chainExt_empty (f : ℕ → Finset ℕ) : chainExt f ∅ = ∅ := rfl

theorem chainExt_insert (f : ℕ → Finset ℕ) (c : Finset ℕ) (x : ℕ)
    (hx : x ∉ c) : chainExt f (insert x c) = f x ∆ chainExt f c := by
  unfold chainExt
  rw [Finset.fold_insert hx]

/-- Membership in the GF(2) extension is parity of the number of cells of the
chain whose image contains the point. -/
theorem mem_chainExt (f : ℕ → Finset ℕ) (c : Finset ℕ) (y : ℕ) :
    y ∈ chainExt f c ↔ Odd (c.filter (fun x => y ∈ f x)).card := by
  induction c using Finset.induction with
  | empty => simp [chainExt]
  | insert hx ih =>
    rename_i a s
    rw [chainExt_insert _ _ _ hx, Finset.filter_insert]
    by_cases hy : y ∈ f a
    · rw [if_pos hy, Finset.card_insert_of_not_mem (by simp [hx]),
        Finset.mem_symmDiff]
      simp [hy, ih, Nat.odd_add_one, Nat.not_even_iff_odd]
    · rw [if_neg hy, Finset.mem_symmDiff]
      simp [hy, ih]

/-- `chainExt` on a singleton chain is the cell-wise map. -/
theorem chainExt_singleton (f : ℕ → Finset ℕ) (x : ℕ) :
    chainExt f {x} = f x := by
  simp [chainExt, Finset.fold_singleton]

/-- Cardinality of a symmetric difference of finsets, with the double-counted
intersection restored. -/
theorem card_symmDiff_add (s t : Finset ℕ) :
    (s ∆ t).card + 2 * (s ∩ t).card = s.card + t.card := by
  rw [symmDiff_def]
  have hdisj : Disjoint (s \ t) (t \ s) :=
    Finset.disjoint_left.mpr (by intro a ha hb; simp at ha hb; tauto)
  rw [Finset.sup_eq_union, Finset.card_union_of_disjoint hdisj]
  have h1 : (s \ t).card + (s ∩ t).card = s.card :=
    Finset.card_sdiff_add_card_inter s t
  have h2 : (t \ s).card + (t ∩ s).card = t.card :=
    Finset.card_sdiff_add_card_inter t s
  rw [Finset.inter_comm t s] at h2
  omega

/-- Filtering distributes over symmetric difference of finsets. -/
theorem filter_symmDiff_eq (p : ℕ → Prop) [DecidablePred p] (s t : Finset ℕ) :
    (s ∆ t).filter p = s.filter p ∆ t.filter p := by
  ext y
  simp only [Finset.mem_filter, Finset.mem_symmDiff]
  tauto

/-- The GF(2) extension of a cell-wise map is additive: it sends symmetric
differences to symmetric differences. -/
theorem chainExt_symmDiff (f : ℕ → Finset ℕ) (s t : Finset ℕ) :
    chainExt f (s ∆ t) = chainExt f s ∆ chainExt f t := by
  ext y
  rw [Finset.mem_symmDiff, mem_chainExt, mem_chainExt, mem_chainExt,
    filter_symmDiff_eq]
  have h := card_symmDiff_add (s.filter (fun x => y ∈ f x))
    (t.filter (fun x => y ∈ f x))
  rw [Nat.odd_iff, Nat.odd_iff, Nat.odd_iff]
  omega

/-- A downward-closed finite set of naturals is an initial segment. -/
theorem downclosed_eq_range {s : Finset ℕ}
    (h : ∀ x ∈ s, ∀ y, y < x → y ∈ s) : s = Finset.range s.card := by
  rcases s.eq_empty_or_nonempty with rfl | hne
  · simp
  · have hmax := s.max'_mem hne
    have hs : s = Finset.range (s.max' hne + 1) := by
      ext x
      simp only [Finset.mem_range, Nat.lt_succ_iff]
      constructor
      · exact fun hx => s.le_max' x hx
      · intro hx
        rcases Nat.lt_or_ge x (s.max' hne) with hlt | hge
        · exact h _ hmax _ hlt
        · have : x = s.max' hne := le_antisymm hx hge
          rw [this]; exact hmax
    have hcard : s.card = s.max' hne + 1 := by
      have := congrArg Finset.card hs
      simpa using this
    rw [hcard]
    exact hs

/-!
## The complex capability

`Complex.h` and `GradedComplex.h` are not in the source tree; only their
interface is described by the spec (sections 3 and 6).

Modelled from the spec: a graded complex capability.  Cell identifiers are
`0, …, n-1`, partitioned by dimension into consecutive ranges in ascending
dimension order ("The range of cells of dimension d is [begin(d), begin(d+1));
dimensions run 0 … D"); `bd` gives the boundary of one cell (one column of
the boundary matrix), which lives in the adjacent lower dimension ("a
boundary map lowering dimension by one"); `val` is the grading
(`GradedComplex::value`).  The closure property of a grading and the
GF(2) `∂∂ = 0` property of a genuine chain complex are stated separately
below since some claims concern their violation. -/
structure GCx where
  /-- number of cells, `Complex::size()` -/
  n : ℕ
  /-- boundary of a single cell: the nonzeros of column `x`, `Complex::column` -/
  bd : ℕ → Finset ℕ
  /-- dimension of a cell -/
  cdim : ℕ → ℕ
  /-- grade of a cell, `GradedComplex::value` -/
  val : ℕ → ℤ
  /-- boundaries stay inside the complex -/
  hbd_sub : ∀ x ∈ Finset.range n, bd x ⊆ Finset.range n
  /-- the boundary lowers dimension by exactly one -/
  hbd_dim : ∀ x ∈ Finset.range n, ∀ y ∈ bd x, cdim y + 1 = cdim x
  /-- cell ids are sorted by dimension (consecutive ranges per dimension) -/
  hsorted : ∀ x ∈ Finset.range n, ∀ y ∈ Finset.range n, cdim x < cdim y → x < y

namespace GCx

/-- `Complex::dimension()`: the top cell dimension. -/
def dimension (C : GCx) : ℕ := (Finset.range C.n).sup C.cdim

/-- The grading closure property (spec section 3: "for every cell x and every
y in boundary({x}), value(y) ≤ value(x)"). -/
def ClosureOK (C : GCx) : Prop :=
  ∀ x ∈ Finset.range C.n, ∀ y ∈ C.bd x, C.val y ≤ C.val x

instance (C : GCx) : Decidable C.ClosureOK := by
  unfold ClosureOK; infer_instance

/-- GF(2) `∂∂ = 0`, stated in the parity form the proofs use: every cell of
the boundary of a boundary occurs there at least twice (an even count is
nonzero on a witness, hence at least 2). -/
def DDEven (C : GCx) : Prop :=
  ∀ x ∈ Finset.range C.n, ∀ q ∈ C.bd x, ∀ y ∈ C.bd q,
    ∃ q' ∈ C.bd x, q' ≠ q ∧ y ∈ C.bd q'

instance (C : GCx) : Decidable C.DDEven := by
  unfold DDEven; infer_instance

/-- Cell dimensions are monotone in the id (from the sortedness of ids). -/
theorem cdim_mono (C : GCx) {x y : ℕ} (hx : x ∈ Finset.range C.n)
    (hy : y ∈ Finset.range C.n) (hxy : x ≤ y) : C.cdim x ≤ C.cdim y := by
  by_contra hlt
  exact absurd (C.hsorted y hy x hx (by omega)) (by omega)

/-- Cells of lower dimension have smaller ids. -/
theorem lt_of_cdim_lt (C : GCx) {x y : ℕ} (hx : x ∈ Finset.range C.n)
    (hy : y ∈ Finset.range C.n) (h : C.cdim x < C.cdim y) : x < y :=
  C.hsorted x hx y hy h

end GCx

/-!
## The flow of `MorseComplex.h`

`MorseComplex::flow` (MorseComplex.h, lines 133-161) keeps a max-priority
queue of queens.  The queue is embedded as a `List ℕ` of entries; extraction
takes an entry of maximal priority (`std::priority_queue` pops a maximal
element; ties are broken in an unspecified order, here by list position).
The loop is embedded with explicit fuel since, for an arbitrary matching,
it need not terminate. -/

/-- Insert a cell into a sorted list of cells (auxiliary, used to enumerate a
finset of cells in a definite order by a computation the proof checker can
evaluate). -/
def insertSorted (x : ℕ) : List ℕ → List ℕ
  | [] => [x]
  | y :: ys => if x ≤ y then x :: y :: ys else y :: insertSorted x ys

theorem insertSorted_swap (a b : ℕ) (l : List ℕ) :
    insertSorted a (insertSorted b l) = insertSorted b (insertSorted a l) := by
  induction l with
  | nil =>
    by_cases hab : a ≤ b <;> by_cases hba : b ≤ a
    · have : a = b := le_antisymm hab hba
      rw [this]
    · simp [insertSorted, hab, hba]
    · simp [insertSorted, hab, hba]
    · omega
  | cons y ys ih =>
    by_cases hay : a ≤ y <;> by_cases hby : b ≤ y
    · by_cases hab : a ≤ b <;> by_cases hba : b ≤ a
      · have : a = b := le_antisymm hab hba
        rw [this]
      · simp [insertSorted, hay, hby, hab, hba]
      · simp [insertSorted, hay, hby, hab, hba]
      · omega
    · simp only [insertSorted, if_pos hay, if_neg hby, if_pos hay,
        if_neg (by omega : ¬ b ≤ a)]
    · simp only [insertSorted, if_pos hby, if_neg hay, if_pos hby,
        if_neg (by omega : ¬ a ≤ b)]
    · simp [insertSorted, hay, hby, ih]

instance : LeftCommutative insertSorted := ⟨insertSorted_swap⟩

/-- The elements of a finset of cells as a sorted list.  Replaces
`Finset.sort`, whose merge sort is not evaluated by the proof checker. -/
def listOf (s : Finset ℕ) : List ℕ := Multiset.foldr insertSorted [] s.val

theorem mem_insertSorted (x a : ℕ) (l : List ℕ) :
    x ∈ insertSorted a l ↔ x = a ∨ x ∈ l := by
  induction l with
  | nil => simp [insertSorted]
  | cons y ys ih =>
    simp only [insertSorted]
    by_cases h : a ≤ y
    · simp [h]
    · simp [h, ih]
      tauto

theorem mem_listOf (s : Finset ℕ) (x : ℕ) : x ∈ listOf s ↔ x ∈ s := by
  unfold listOf
  rw [← Finset.mem_val]
  induction s.val using Multiset.induction with
  | empty => simp
  | cons a t ih => rw [Multiset.foldr_cons, mem_insertSorted, ih]; simp

/-- One maximal-priority extraction from the queue: the first entry of
maximal priority together with the remaining entries. -/
def popMax (pr : ℤ → ℤ) : List ℕ → Option (ℕ × List ℕ)
  | [] => none
  | x :: xs =>
    let m := (x :: xs).foldl
      (fun (b y : ℕ) => if pr (b : ℤ) < pr (y : ℤ) then y else b) x
    some (m, (x :: xs).erase m)

/-- The queens of a finite set of cells, as a sorted list
(`isQueen x := x < mate(x)`, MorseComplex.h, line 135; the push order of
`std::priority_queue` contents is irrelevant, the list is a multiset). -/
def queensOf (mate : ℤ → ℤ) (s : Finset ℕ) : List ℕ :=
  listOf (s.filter (fun (y : ℕ) => (y : ℤ) < mate (y : ℤ)))

/-- The loop of `MorseComplex::flow`: extract the top queen, skip it if it was
cancelled out of `canonical`, otherwise add its king to `gamma` and add the
king's boundary to `canonical`, pushing the queens of that boundary. -/
def flowLoop (bd : ℕ → Finset ℕ) (mate pr : ℤ → ℤ) :
    ℕ → List ℕ → Finset ℕ → Finset ℕ → Option (Finset ℕ × Finset ℕ)
  | _, [], can, gam => some (can, gam)
  | 0, _ :: _, _, _ => none
  | fuel + 1, x :: xs, can, gam =>
    match popMax pr (x :: xs) with
    | none => some (can, gam)
    | some (q, rest) =>
      if q ∈ can then
        let king := (mate q).toNat
        flowLoop bd mate pr fuel (rest ++ queensOf mate (bd king))
          (can ∆ bd king) (gam ∆ {king})
      else flowLoop bd mate pr fuel rest can gam

/-- `MorseComplex::flow`: seed `canonical` with the input chain, seed the
queue with its queens, and run the loop. -/
def flowModel (bd : ℕ → Finset ℕ) (mate pr : ℤ → ℤ) (fuel : ℕ)
    (c : Finset ℕ) : Option (Finset ℕ × Finset ℕ) :=
  flowLoop bd mate pr fuel (queensOf mate c) c ∅

/-- The quantity `canonical + boundary(gamma)` is invariant along the flow
loop. -/
theorem flowLoop_invariant (bd : ℕ → Finset ℕ) (mate pr : ℤ → ℤ) :
    ∀ (fuel : ℕ) (queue : List ℕ) (can gam can' gam' : Finset ℕ),
      flowLoop bd mate pr fuel queue can gam = some (can', gam') →
      can' ∆ chainExt bd gam' = can ∆ chainExt bd gam := by
  intro fuel
  induction fuel with
  | zero =>
    intro queue can gam can' gam' h
    cases queue with
    | nil => simp [flowLoop] at h; rw [h.1, h.2]
    | cons x xs => simp [flowLoop] at h
  | succ fuel ih =>
    intro queue can gam can' gam' h
    cases queue with
    | nil => simp [flowLoop] at h; rw [h.1, h.2]
    | cons x xs =>
      rw [flowLoop] at h
      cases hp : popMax pr (x :: xs) with
      | none => simp only [hp] at h; simp at h; rw [h.1, h.2]
      | some qr =>
        obtain ⟨q, rest⟩ := qr
        simp only [hp] at h
        by_cases hq : q ∈ can
        · rw [if_pos hq] at h
          have hrec := ih _ _ _ _ _ h
          rw [hrec, chainExt_symmDiff, chainExt_singleton]
          ext y
          simp only [Finset.mem_symmDiff]
          tauto
        · rw [if_neg hq] at h
          exact ih _ _ _ _ _ h

/-- A finset is recovered from symmetric difference with the empty boundary
of the empty gamma chain. -/
theorem flow_law_aux (bd : ℕ → Finset ℕ) (c : Finset ℕ) :
    c ∆ chainExt bd ∅ = c := by
  rw [chainExt_empty]
  ext y
  simp [Finset.mem_symmDiff]

/-- Claim C1.  For every base complex (any single-cell boundary map `bd`),
every matching (any `mate` and `priority` function), and every chain `c`,
if `MorseComplex::flow(c)` returns the pair `(canonical, gamma)` then
`canonical + base.boundary(gamma) = c` where `+` is symmetric difference. -/
theorem flow_law (bd : ℕ → Finset ℕ) (mate pr : ℤ → ℤ) (fuel : ℕ)
    (c can gam : Finset ℕ)
    (h : flowModel bd mate pr fuel c = some (can, gam)) :
    can ∆ chainExt bd gam = c := by
  have := flowLoop_invariant bd mate pr fuel (queensOf mate c) c ∅ can gam h
  rw [this, flow_law_aux]

/-!
## GenericMorseMatching

Embedding of the coreduction constructor
(GenericMorseMatching.h, lines 45-208).  The working sets `coreducible` and
`ace_candidates` are `std::unordered_set`s whose iteration order is
unspecified; extraction of `*begin()` is modelled as extraction of the least
element.  The `while` loop is embedded with fuel `M`; each iteration
increases `num_processed` by at least one, so this fuel is exact.

The two places where the C++ has undefined behavior — reading the stale `Q`
when a coreducible cell has no unmatched boundary neighbor, and dereferencing
`begin()` of an empty set — are modelled by a fault flag `ub` together with
a bail-out; both are proved unreachable when the grading satisfies the
closure property and the complex satisfies GF(2) `∂∂ = 0`. -/

/-- The capped dimension `D` (GenericMorseMatching.h, lines 53-55): an
invalid `match_dim` (including the default `-1` and, notably, `0`) selects
the full dimension. -/
def gmD (C : GCx) (md : ℤ) : ℕ :=
  if 0 < md ∧ md ≤ (C.dimension : ℤ) then md.toNat else C.dimension

/-- `N`, the number of cells of dimension at most `D`
(`N = *(top_range.end())`, line 61). -/
def gmN (C : GCx) (md : ℤ) : ℕ :=
  ((Finset.range C.n).filter (fun x => C.cdim x ≤ gmD C md)).card

/-- `top_begin`, the first cell id of dimension `D` (line 62). -/
def gmTopBegin (C : GCx) (md : ℤ) : ℕ :=
  ((Finset.range C.n).filter (fun x => C.cdim x < gmD C md)).card

/-- Eligibility of a cell for matching: `not truncate ||
graded_complex.value(x) <= max_grade` (lines 110 and 193). -/
def gmElig (C : GCx) (tr : Bool) (mg : ℤ) (x : ℕ) : Prop :=
  tr = true → C.val x ≤ mg

instance (C : GCx) (tr : Bool) (mg : ℤ) (x : ℕ) :
    Decidable (gmElig C tr mg x) := by unfold gmElig; infer_instance

/-- `M`, the number of eligible cells (lines 108-112). -/
def gmM (C : GCx) (md : ℤ) (tr : Bool) (mg : ℤ) : ℕ :=
  ((Finset.range (gmN C md)).filter (gmElig C tr mg)).card

/-- The graded boundary: boundary neighbors of equal grade (the helper `bd`,
lines 76-87, with the throw on a greater-grade neighbor split off into
`gmViolation` below). -/
def gbd (C : GCx) (x : ℕ) : Finset ℕ :=
  (C.bd x).filter (fun y => C.val y = C.val x)

/-- The graded coboundary restricted to the matched range (the helper `cbd`,
lines 89-99): empty for cells of top dimension `D`, else the same-grade
transpose of the boundary.  `Complex::coboundary` is not in the source tree;
modelled from the spec as the transpose of `bd`. -/
def gcbd (C : GCx) (md : ℤ) (y : ℕ) : Finset ℕ :=
  if gmTopBegin C md ≤ y then ∅
  else (Finset.range C.n).filter (fun x => y ∈ C.bd x ∧ C.val x = C.val y)

/-- The grading-closure violation detected by the helper `bd` (lines 80-83):
some scanned (eligible, dimension at most `D`) cell has a boundary neighbor
of strictly greater grade.  The constructor throws exactly when this
holds. -/
def gmViolation (C : GCx) (md : ℤ) (tr : Bool) (mg : ℤ) : Prop :=
  ∃ x ∈ Finset.range (gmN C md), gmElig C tr mg x ∧
    ∃ y ∈ C.bd x, C.val x < C.val y

instance (C : GCx) (md : ℤ) (tr : Bool) (mg : ℤ) :
    Decidable (gmViolation C md tr mg) := by unfold gmViolation; infer_instance

/-- The mutable state of the coreduction loop. -/
structure GMState where
  /-- the array `mate_`, with sentinel `-1` -/
  mate : ℕ → ℤ
  /-- the array `priority_` -/
  prio : ℕ → ℤ
  /-- `num_processed` -/
  nump : ℕ
  /-- the array `boundary_count` (it can be driven below zero on corrupt
  inputs, exactly as in the C++, hence `ℤ`) -/
  bcount : ℕ → ℤ
  /-- the set `coreducible` -/
  cored : Finset ℕ
  /-- the set `ace_candidates` -/
  aces : Finset ℕ
  /-- fault flag marking states the C++ reaches only through undefined
  behavior; proved unreachable for well-formed inputs -/
  ub : Bool

variable (C : GCx) (md : ℤ) (tr : Bool) (mg : ℤ)

/-- The initial state (lines 69-123): all mates `-1`, boundary counts of the
eligible cells, and the initial ace/coreducible sets. -/
def gmInit : GMState where
  mate := fun _ => -1
  prio := fun _ => 0
  nump := 0
  bcount := fun x =>
    if x < gmN C md ∧ gmElig C tr mg x then ((gbd C x).card : ℤ) else 0
  cored := (Finset.range (gmN C md)).filter
    (fun x => gmElig C tr mg x ∧ (gbd C x).card = 1)
  aces := (Finset.range (gmN C md)).filter
    (fun x => gmElig C tr mg x ∧ (gbd C x).card = 0)
  ub := false

/-- The lambda `process` (lines 125-141): assign the priority
`value(y)·M + num_processed`, advance the counter, remove `y` from both
working sets, and decrement the boundary count of every graded coboundary
neighbor, moving it to `ace_candidates` on a transition to `0` and into
`coreducible` on a transition to `1`. -/
def gmProcess (y : ℕ) (s : GMState) : GMState :=
  let bc' := fun x => if x ∈ gcbd C md y then s.bcount x - 1 else s.bcount x
  { mate := s.mate
    prio := Function.update s.prio y (C.val y * (gmM C md tr mg : ℤ) + s.nump)
    nump := s.nump + 1
    bcount := bc'
    cored := ((s.cored.erase y) ∪ (gcbd C md y).filter (fun x => bc' x = 1)) \
      (gcbd C md y).filter (fun x => bc' x = 0)
    aces := (s.aces.erase y) ∪ (gcbd C md y).filter (fun x => bc' x = 0)
    ub := s.ub }

/-- One iteration of the main loop (lines 151-178): extract a coreducible
cell `K` and match it with its unique unmatched graded boundary neighbor
`Q`, else extract an ace candidate and match it with itself. -/
def gmStep (s : GMState) : GMState :=
  if h : s.cored.Nonempty then
    match (listOf ((gbd C (s.cored.min' h)).filter
        (fun x => s.mate x = -1))).head? with
    | some Q =>
      gmProcess C md tr mg (s.cored.min' h)
        (gmProcess C md tr mg Q
          { s with cored := s.cored.erase (s.cored.min' h),
                   mate := Function.update
                     (Function.update s.mate (s.cored.min' h) (Q : ℤ))
                     Q ((s.cored.min' h : ℕ) : ℤ) })
    | none => { s with cored := s.cored.erase (s.cored.min' h),
                       nump := gmM C md tr mg, ub := true }
  else if h2 : s.aces.Nonempty then
    gmProcess C md tr mg (s.aces.min' h2)
      { s with aces := s.aces.erase (s.aces.min' h2),
               mate := Function.update s.mate (s.aces.min' h2)
                 ((s.aces.min' h2 : ℕ) : ℤ) }
  else { s with nump := gmM C md tr mg, ub := true }

/-- The main loop (`while (num_processed < M)`, line 151), with fuel. -/
def gmLoop : ℕ → GMState → GMState
  | 0, s => s
  | f + 1, s =>
    if s.nump < gmM C md tr mg then gmLoop f (gmStep C md tr mg s) else s

/-- The state after the constructor's main loop: fuel `M` is exact since
every iteration advances `num_processed` by at least one. -/
def gmFinal : GMState := gmLoop C md tr mg (gmM C md tr mg) (gmInit C md tr mg)

/-- The critical cells recorded in the reindex table (lines 187-202):
eligible cells of dimension at most `D` that are their own mate, taken in
ascending id order (which is ascending dimension order). -/
def gmCriticals : Finset ℕ :=
  (Finset.range (gmN C md)).filter
    (fun v => gmElig C tr mg v ∧ (gmFinal C md tr mg).mate v = (v : ℤ))

/-- `GenericMorseMatching::mate` (line 216): an unchecked array access;
out-of-range arguments are undefined behavior in the C++ and are modelled by
the sentinel `-1`. -/
def gmMate (x : ℤ) : ℤ :=
  if 0 ≤ x ∧ x < (gmN C md : ℤ) then (gmFinal C md tr mg).mate x.toNat else -1

/-- `GenericMorseMatching::priority` (line 219): likewise an unchecked array
access, junk value `0` out of range. -/
def gmPriorityF (x : ℤ) : ℤ :=
  if 0 ≤ x ∧ x < (gmN C md : ℤ) then (gmFinal C md tr mg).prio x.toNat else 0

/-!
### Structural lemmas about the matched range
-/

theorem gmN_block (x : ℕ) :
    x ∈ Finset.range (gmN C md) ↔ x < C.n ∧ C.cdim x ≤ gmD C md := by
  have hdc : ∀ a ∈ (Finset.range C.n).filter (fun z => C.cdim z ≤ gmD C md),
      ∀ b, b < a → b ∈ (Finset.range C.n).filter (fun z => C.cdim z ≤ gmD C md) := by
    intro a ha b hb
    rw [Finset.mem_filter, Finset.mem_range] at ha ⊢
    refine ⟨by omega, le_trans ?_ ha.2⟩
    exact C.cdim_mono (Finset.mem_range.mpr (by omega))
      (Finset.mem_range.mpr ha.1) (le_of_lt hb)
  have := downclosed_eq_range hdc
  rw [gmN, ← this, Finset.mem_filter, Finset.mem_range]

theorem gmTopBegin_block (y : ℕ) :
    y < gmTopBegin C md ↔ y < C.n ∧ C.cdim y < gmD C md := by
  have hdc : ∀ a ∈ (Finset.range C.n).filter (fun z => C.cdim z < gmD C md),
      ∀ b, b < a → b ∈ (Finset.range C.n).filter (fun z => C.cdim z < gmD C md) := by
    intro a ha b hb
    rw [Finset.mem_filter, Finset.mem_range] at ha ⊢
    refine ⟨by omega, lt_of_le_of_lt ?_ ha.2⟩
    exact C.cdim_mono (Finset.mem_range.mpr (by omega))
      (Finset.mem_range.mpr ha.1) (le_of_lt hb)
  have := downclosed_eq_range hdc
  rw [gmTopBegin, ← Finset.mem_range, ← this, Finset.mem_filter, Finset.mem_range]

/-- Boundary cells of a cell of the matched range stay in the matched
range. -/
theorem bd_mem_range (x y : ℕ) (hx : x ∈ Finset.range (gmN C md))
    (hy : y ∈ C.bd x) : y ∈ Finset.range (gmN C md) := by
  rw [gmN_block] at hx ⊢
  have hxn : x ∈ Finset.range C.n := Finset.mem_range.mpr hx.1
  have hyn := C.hbd_sub x hxn hy
  have hdim := C.hbd_dim x hxn y hy
  exact ⟨Finset.mem_range.mp hyn, by omega⟩

/-- Graded boundary cells of an eligible cell of the matched range are again
eligible cells of the matched range. -/
theorem gbd_mem (x y : ℕ) (hx : x ∈ Finset.range (gmN C md))
    (hxe : gmElig C tr mg x) (hy : y ∈ gbd C x) :
    y ∈ Finset.range (gmN C md) ∧ gmElig C tr mg y ∧
      y ∈ C.bd x ∧ C.val y = C.val x := by
  rw [gbd, Finset.mem_filter] at hy
  refine ⟨bd_mem_range C md x y hx hy.1, ?_, hy.1, hy.2⟩
  intro htr
  rw [hy.2]
  exact hxe htr

/-- No cell is in its own graded boundary (spec-modelled boundary lowers
dimension by one). -/
theorem not_mem_gbd_self (y : ℕ) (hy : y ∈ Finset.range (gmN C md)) :
    y ∉ gbd C y := by
  intro h
  rw [gbd, Finset.mem_filter] at h
  have hyn : y ∈ Finset.range C.n := by
    rw [gmN_block] at hy
    exact Finset.mem_range.mpr hy.1
  have := C.hbd_dim y hyn y h.1
  omega

/-- Two cells cannot lie in each other's graded boundary, by the dimension
drop of the boundary map. -/
theorem gbd_asymm (a b : ℕ) (har : a ∈ Finset.range C.n)
    (hbr : b ∈ Finset.range C.n) (h1 : a ∈ gbd C b) (h2 : b ∈ gbd C a) :
    False := by
  rw [gbd, Finset.mem_filter] at h1 h2
  have d1 := C.hbd_dim b hbr a h1.1
  have d2 := C.hbd_dim a har b h2.1
  omega

/-- The graded coboundary of the constructor is exactly the set of cells of
the matched range whose graded boundary contains the given cell (the
`x >= top_begin` early return cuts off nothing else). -/
theorem gcbd_eq (y : ℕ) :
    gcbd C md y = (Finset.range (gmN C md)).filter (fun x => y ∈ gbd C x) := by
  rw [gcbd]
  by_cases htop : gmTopBegin C md ≤ y
  · rw [if_pos htop]
    symm
    rw [Finset.eq_empty_iff_forall_not_mem]
    intro x hx
    rw [Finset.mem_filter] at hx
    obtain ⟨hxr, hygbd⟩ := hx
    rw [gbd, Finset.mem_filter] at hygbd
    have hxn : x ∈ Finset.range C.n := by
      rw [gmN_block] at hxr
      exact Finset.mem_range.mpr hxr.1
    have hdim := C.hbd_dim x hxn y hygbd.1
    have hyn := C.hbd_sub x hxn hygbd.1
    have hytop : y < gmTopBegin C md := by
      rw [gmTopBegin_block]
      rw [gmN_block] at hxr
      exact ⟨Finset.mem_range.mp hyn, by omega⟩
    omega
  · rw [if_neg htop]
    ext x
    rw [Finset.mem_filter, Finset.mem_filter, gbd, Finset.mem_filter]
    have hyy : y < C.n ∧ C.cdim y < gmD C md := (gmTopBegin_block C md y).mp (by omega)
    constructor
    · rintro ⟨hxn, hybd, hval⟩
      have hdim := C.hbd_dim x hxn y hybd
      refine ⟨?_, hybd, by omega⟩
      rw [gmN_block]
      exact ⟨Finset.mem_range.mp hxn, by omega⟩
    · rintro ⟨hxr, hybd, hval⟩
      rw [gmN_block] at hxr
      exact ⟨Finset.mem_range.mpr hxr.1, hybd, by omega⟩

/-- Members of the graded coboundary are eligible cells of the matched range
whenever the center cell is eligible. -/
theorem gcbd_mem (y x : ℕ) (hye : gmElig C tr mg y) (hx : x ∈ gcbd C md y) :
    x ∈ Finset.range (gmN C md) ∧ gmElig C tr mg x ∧ y ∈ gbd C x := by
  rw [gcbd_eq, Finset.mem_filter] at hx
  refine ⟨hx.1, ?_, hx.2⟩
  have := hx.2
  rw [gbd, Finset.mem_filter] at this
  intro htr
  rw [← this.2]
  exact hye htr

/-!
### Abstract processed sets and derived working sets
-/

/-- The set of processed cells, read off a mate array: eligible cells of the
matched range whose mate is no longer the sentinel. -/
def PSetF (m : ℕ → ℤ) : Finset ℕ :=
  (Finset.range (gmN C md)).filter (fun x => gmElig C tr mg x ∧ m x ≠ -1)

/-- The number of graded boundary neighbors not yet in the processed set. -/
def dcount (P : Finset ℕ) (x : ℕ) : ℕ :=
  ((gbd C x).filter (fun y => y ∉ P)).card

/-- Derived description of the set `coreducible`. -/
def derivedCored (P : Finset ℕ) : Finset ℕ :=
  (Finset.range (gmN C md)).filter
    (fun x => gmElig C tr mg x ∧ x ∉ P ∧ dcount C P x = 1)

/-- Derived description of the set `ace_candidates`. -/
def derivedAces (P : Finset ℕ) : Finset ℕ :=
  (Finset.range (gmN C md)).filter
    (fun x => gmElig C tr mg x ∧ x ∉ P ∧ dcount C P x = 0)

theorem dcount_eq_zero (P : Finset ℕ) (x : ℕ) (h : gbd C x ⊆ P) :
    dcount C P x = 0 := by
  rw [dcount, Finset.card_eq_zero, Finset.eq_empty_iff_forall_not_mem]
  intro y hy
  rw [Finset.mem_filter] at hy
  exact hy.2 (h hy.1)

/-- Removing one more processed cell from the reference set decrements the
count by exactly its membership in the graded boundary. -/
theorem dcount_insert (P : Finset ℕ) (y x : ℕ) (hyP : y ∉ P) :
    dcount C P x =
      dcount C (insert y P) x + (if y ∈ gbd C x then 1 else 0) := by
  rw [dcount, dcount]
  by_cases hy : y ∈ gbd C x
  · rw [if_pos hy]
    have : (gbd C x).filter (fun z => z ∉ P) =
        insert y ((gbd C x).filter (fun z => z ∉ insert y P)) := by
      ext z
      rw [Finset.mem_insert, Finset.mem_filter, Finset.mem_filter,
        Finset.mem_insert]
      constructor
      · rintro ⟨hz1, hz2⟩
        by_cases hzy : z = y
        · exact Or.inl hzy
        · exact Or.inr ⟨hz1, by tauto⟩
      · rintro (rfl | ⟨hz1, hz2⟩)
        · exact ⟨hy, hyP⟩
        · exact ⟨hz1, fun hz => hz2 (Or.inr hz)⟩
    rw [this, Finset.card_insert_of_not_mem (by simp)]
  · rw [if_neg hy]
    congr 1
    ext z
    rw [Finset.mem_filter, Finset.mem_filter, Finset.mem_insert]
    constructor
    · rintro ⟨hz1, hz2⟩
      refine ⟨hz1, ?_⟩
      rintro (rfl | hzz)
      · exact hy hz1
      · exact hz2 hzz
    · rintro ⟨hz1, hz2⟩
      exact ⟨hz1, fun hz => hz2 (Or.inr hz)⟩

theorem mem_PSetF (m : ℕ → ℤ) (x : ℕ) :
    x ∈ PSetF C md tr mg m ↔
      x ∈ Finset.range (gmN C md) ∧ gmElig C tr mg x ∧ m x ≠ -1 := by
  rw [PSetF, Finset.mem_filter]

theorem mem_derivedCored (P : Finset ℕ) (x : ℕ) :
    x ∈ derivedCored C md tr mg P ↔
      x ∈ Finset.range (gmN C md) ∧ gmElig C tr mg x ∧ x ∉ P ∧
        dcount C P x = 1 := by
  rw [derivedCored, Finset.mem_filter]

theorem mem_derivedAces (P : Finset ℕ) (x : ℕ) :
    x ∈ derivedAces C md tr mg P ↔
      x ∈ Finset.range (gmN C md) ∧ gmElig C tr mg x ∧ x ∉ P ∧
        dcount C P x = 0 := by
  rw [derivedAces, Finset.mem_filter]

theorem gmProcess_mate (y : ℕ) (s : GMState) :
    (gmProcess C md tr mg y s).mate = s.mate := rfl

theorem gmProcess_nump (y : ℕ) (s : GMState) :
    (gmProcess C md tr mg y s).nump = s.nump + 1 := rfl

theorem gmProcess_prio (y : ℕ) (s : GMState) :
    (gmProcess C md tr mg y s).prio =
      Function.update s.prio y
        (C.val y * (gmM C md tr mg : ℤ) + s.nump) := rfl

theorem gmProcess_ub (y : ℕ) (s : GMState) :
    (gmProcess C md tr mg y s).ub = s.ub := rfl

theorem gmProcess_bcount (y : ℕ) (s : GMState) (x : ℕ) :
    (gmProcess C md tr mg y s).bcount x =
      if x ∈ gcbd C md y then s.bcount x - 1 else s.bcount x := rfl

theorem gmProcess_cored (y : ℕ) (s : GMState) :
    (gmProcess C md tr mg y s).cored =
      ((s.cored.erase y) ∪
          (gcbd C md y).filter (fun x => s.bcount x - 1 = 1)) \
        (gcbd C md y).filter (fun x => s.bcount x - 1 = 0) := by
  show ((s.cored.erase y) ∪ (gcbd C md y).filter _) \ _ = _
  congr 1
  · congr 1
    refine Finset.filter_congr ?_
    intro x hx
    simp [hx]
  · refine Finset.filter_congr ?_
    intro x hx
    simp [hx]

theorem gmProcess_aces (y : ℕ) (s : GMState) :
    (gmProcess C md tr mg y s).aces =
      (s.aces.erase y) ∪
        (gcbd C md y).filter (fun x => s.bcount x - 1 = 0) := by
  show (s.aces.erase y) ∪ (gcbd C md y).filter _ = _
  congr 1
  refine Finset.filter_congr ?_
  intro x hx
  simp [hx]

/-- Effect of `process` on the boundary counts and the two working sets,
relative to a reference set `P` of already-processed cells.  The slack sets
`E1`, `E2` account for the eager `erase` that the extraction code performs
before calling `process`. -/
theorem gmProcess_effect (s : GMState) (y : ℕ) (P E1 E2 : Finset ℕ)
    (hbcP : ∀ x ∈ Finset.range (gmN C md), gmElig C tr mg x →
      s.bcount x = (dcount C P x : ℤ))
    (hcorP : s.cored = derivedCored C md tr mg P \ E1)
    (hacP : s.aces = derivedAces C md tr mg P \ E2)
    (hyr : y ∈ Finset.range (gmN C md)) (hye : gmElig C tr mg y)
    (hyP : y ∉ P)
    (hPcl : ∀ x ∈ P, gbd C x ⊆ P)
    (hE1 : ∀ e ∈ E1, e = y ∨
      (e ∈ gcbd C md y ∧ e ∉ P ∧ dcount C P e = 1))
    (hE2 : ∀ e ∈ E2, e = y) :
    (∀ x ∈ Finset.range (gmN C md), gmElig C tr mg x →
      (gmProcess C md tr mg y s).bcount x = (dcount C (insert y P) x : ℤ)) ∧
    (gmProcess C md tr mg y s).cored =
      derivedCored C md tr mg (insert y P) ∧
    (gmProcess C md tr mg y s).aces =
      derivedAces C md tr mg (insert y P) := by
  have hygcbd : y ∉ gcbd C md y := by
    rw [gcbd_eq, Finset.mem_filter]
    rintro ⟨-, h2⟩
    exact not_mem_gbd_self C md y hyr h2
  -- membership facts for graded coboundary neighbors
  have hgc_fact : ∀ x ∈ gcbd C md y,
      x ∈ Finset.range (gmN C md) ∧ gmElig C tr mg x ∧ y ∈ gbd C x :=
    fun x hx => gcbd_mem C md tr mg y x hye hx
  have hnotgc : ∀ x, x ∈ Finset.range (gmN C md) → x ∉ gcbd C md y →
      y ∉ gbd C x := by
    intro x hxr hxgc hygbd
    exact hxgc (by rw [gcbd_eq, Finset.mem_filter]; exact ⟨hxr, hygbd⟩)
  refine ⟨?_, ?_, ?_⟩
  · -- boundary counts
    intro x hxr hxe
    rw [gmProcess_bcount, hbcP x hxr hxe]
    by_cases hgc : x ∈ gcbd C md y
    · rw [if_pos hgc]
      have h3 := dcount_insert C P y x hyP
      rw [if_pos (hgc_fact x hgc).2.2] at h3
      omega
    · rw [if_neg hgc]
      have h3 := dcount_insert C P y x hyP
      by_cases hxgbd : y ∈ gbd C x
      · exact absurd (by rw [gcbd_eq, Finset.mem_filter]; exact ⟨hxr, hxgbd⟩) hgc
      · rw [if_neg hxgbd] at h3
        omega
  · -- the coreducible set
    rw [gmProcess_cored, hcorP]
    ext x
    simp only [Finset.mem_sdiff, Finset.mem_union, Finset.mem_erase,
      Finset.mem_filter, mem_derivedCored, mem_derivedAces,
      Finset.mem_insert]
    by_cases hxy : x = y
    · subst hxy
      constructor
      · rintro ⟨(⟨hne, -⟩ | ⟨hgc, -⟩), -⟩
        · exact absurd rfl hne
        · exact absurd hgc hygcbd
      · rintro ⟨-, -, hmem, -⟩
        exact absurd (Or.inl rfl) hmem
    · by_cases hgc : x ∈ gcbd C md y
      · obtain ⟨hxr, hxe, hygbd⟩ := hgc_fact x hgc
        have hb := hbcP x hxr hxe
        have h3 := dcount_insert C P y x hyP
        rw [if_pos hygbd] at h3
        by_cases hxP : x ∈ P
        · have h0 : dcount C P x = 0 :=
            dcount_eq_zero C P x (hPcl x hxP)
          constructor
          · rintro ⟨(⟨-, ⟨-, -, hnp, -⟩, -⟩ | ⟨-, hc⟩), -⟩
            · exact absurd hxP hnp
            · rw [hb] at hc; omega
          · rintro ⟨-, -, hmem, -⟩
            exact absurd (Or.inr hxP) hmem
        · constructor
          · rintro ⟨(⟨-, ⟨-, -, -, hd1⟩, -⟩ | ⟨-, hc⟩), hnot⟩
            · exfalso
              apply hnot
              refine ⟨hgc, ?_⟩
              rw [hb]
              omega
            · rw [hb] at hc
              refine ⟨hxr, hxe, by tauto, by omega⟩
          · rintro ⟨-, -, -, hd⟩
            refine ⟨Or.inr ⟨hgc, by rw [hb]; omega⟩, ?_⟩
            rintro ⟨-, hc⟩
            rw [hb] at hc
            omega
      · -- x not in the graded coboundary: counts unchanged
        by_cases hxre : x ∈ Finset.range (gmN C md) ∧ gmElig C tr mg x
        · obtain ⟨hxr, hxe⟩ := hxre
          have hygbd : y ∉ gbd C x := hnotgc x hxr hgc
          have h3 := dcount_insert C P y x hyP
          rw [if_neg hygbd] at h3
          have hxE1 : x ∉ E1 := by
            intro hmem
            rcases hE1 x hmem with rfl | ⟨hc, -⟩
            · exact hxy rfl
            · exact hgc hc
          constructor
          · rintro ⟨(⟨-, ⟨-, -, hnp, hd1⟩, -⟩ | ⟨hc, -⟩), -⟩
            · exact ⟨hxr, hxe, by tauto, by omega⟩
            · exact absurd hc hgc
          · rintro ⟨-, -, hmem, hd⟩
            refine ⟨Or.inl ⟨hxy, ⟨hxr, hxe, by tauto, by omega⟩, hxE1⟩, ?_⟩
            rintro ⟨hc, -⟩
            exact hgc hc
        · constructor
          · rintro ⟨(⟨-, ⟨hr, he, -⟩, -⟩ | ⟨hc, -⟩), -⟩
            · exact absurd (⟨hr, he⟩ : _ ∧ _) hxre
            · exact absurd hc hgc
          · rintro ⟨hr, he, -⟩
            exact absurd (⟨hr, he⟩ : _ ∧ _) hxre
  · -- the ace candidate set
    rw [gmProcess_aces, hacP]
    ext x
    simp only [Finset.mem_union, Finset.mem_erase, Finset.mem_filter,
      Finset.mem_sdiff, mem_derivedAces, Finset.mem_insert]
    by_cases hxy : x = y
    · subst hxy
      constructor
      · rintro (⟨hne, -⟩ | ⟨hgc, -⟩)
        · exact absurd rfl hne
        · exact absurd hgc hygcbd
      · rintro ⟨-, -, hmem, -⟩
        exact absurd (Or.inl rfl) hmem
    · by_cases hgc : x ∈ gcbd C md y
      · obtain ⟨hxr, hxe, hygbd⟩ := hgc_fact x hgc
        have hb := hbcP x hxr hxe
        have h3 := dcount_insert C P y x hyP
        rw [if_pos hygbd] at h3
        by_cases hxP : x ∈ P
        · have h0 : dcount C P x = 0 :=
            dcount_eq_zero C P x (hPcl x hxP)
          constructor
          · rintro (⟨-, ⟨-, -, hnp, -⟩, -⟩ | ⟨-, hc⟩)
            · exact absurd hxP hnp
            · rw [hb] at hc; omega
          · rintro ⟨-, -, hmem, -⟩
            exact absurd (Or.inr hxP) hmem
        · constructor
          · rintro (⟨-, ⟨-, -, -, hd0⟩, -⟩ | ⟨-, hc⟩)
            · omega
            · rw [hb] at hc
              exact ⟨hxr, hxe, by tauto, by omega⟩
          · rintro ⟨-, -, -, hd⟩
            exact Or.inr ⟨hgc, by rw [hb]; omega⟩
      · by_cases hxre : x ∈ Finset.range (gmN C md) ∧ gmElig C tr mg x
        · obtain ⟨hxr, hxe⟩ := hxre
          have hygbd : y ∉ gbd C x := hnotgc x hxr hgc
          have h3 := dcount_insert C P y x hyP
          rw [if_neg hygbd] at h3
          have hxE2 : x ∉ E2 := fun hmem => hxy (hE2 x hmem)
          constructor
          · rintro (⟨-, ⟨-, -, hnp, hd0⟩, -⟩ | ⟨hc, -⟩)
            · exact ⟨hxr, hxe, by tauto, by omega⟩
            · exact absurd hc hgc
          · rintro ⟨-, -, hmem, hd⟩
            exact Or.inl ⟨hxy, ⟨hxr, hxe, by tauto, by omega⟩, hxE2⟩
        · constructor
          · rintro (⟨-, ⟨hr, he, -⟩, -⟩ | ⟨hc, -⟩)
            · exact absurd (⟨hr, he⟩ : _ ∧ _) hxre
            · exact absurd hc hgc
          · rintro ⟨hr, he, -⟩
            exact absurd (⟨hr, he⟩ : _ ∧ _) hxre

theorem listOf_singleton (a : ℕ) : listOf {a} = [a] := rfl

/-- Setting the mates of a fresh king/queen pair grows the processed set by
exactly those two cells. -/
theorem PSetF_update_pair (m : ℕ → ℤ) (K Q : ℕ)
    (hKr : K ∈ Finset.range (gmN C md)) (hKe : gmElig C tr mg K)
    (hQr : Q ∈ Finset.range (gmN C md)) (hQe : gmElig C tr mg Q)
    (hne : K ≠ Q) :
    PSetF C md tr mg (Function.update (Function.update m K (Q : ℤ)) Q (K : ℤ)) =
      insert Q (insert K (PSetF C md tr mg m)) := by
  ext x
  rw [mem_PSetF, Finset.mem_insert, Finset.mem_insert, mem_PSetF]
  by_cases hxQ : x = Q
  · subst hxQ
    rw [Function.update_same]
    constructor
    · intro _; exact Or.inl rfl
    · intro _
      refine ⟨hQr, hQe, ?_⟩
      omega
  · by_cases hxK : x = K
    · subst hxK
      rw [Function.update_noteq (by exact_mod_cast hne),
        Function.update_same]
      constructor
      · intro _; exact Or.inr (Or.inl rfl)
      · intro _
        refine ⟨hKr, hKe, ?_⟩
        omega
    · rw [Function.update_noteq (by exact_mod_cast hxQ),
        Function.update_noteq (by exact_mod_cast hxK)]
      constructor
      · intro h; exact Or.inr (Or.inr h)
      · rintro (h1 | h1 | h1)
        · exact absurd h1 hxQ
        · exact absurd h1 hxK
        · exact h1

/-- Marking an ace as its own mate grows the processed set by that cell. -/
theorem PSetF_update_self (m : ℕ → ℤ) (A : ℕ)
    (hAr : A ∈ Finset.range (gmN C md)) (hAe : gmElig C tr mg A) :
    PSetF C md tr mg (Function.update m A (A : ℤ)) =
      insert A (PSetF C md tr mg m) := by
  ext x
  rw [mem_PSetF, Finset.mem_insert, mem_PSetF]
  by_cases hxA : x = A
  · subst hxA
    rw [Function.update_same]
    constructor
    · intro _; exact Or.inl rfl
    · intro _
      refine ⟨hAr, hAe, ?_⟩
      omega
  · rw [Function.update_noteq hxA]
    constructor
    · intro h; exact Or.inr h
    · rintro (rfl | h)
      · exact absurd rfl hxA
      · exact h

/-- The loop invariant of the coreduction constructor.  `P` abbreviates the
processed set read off the mate array. -/
structure GMInv (s : GMState) : Prop where
  /-- `num_processed` counts the processed cells -/
  hnump : s.nump = (PSetF C md tr mg s.mate).card
  /-- `boundary_count` counts unprocessed graded boundary neighbors -/
  hbc : ∀ x ∈ Finset.range (gmN C md), gmElig C tr mg x →
    s.bcount x = (dcount C (PSetF C md tr mg s.mate) x : ℤ)
  /-- `coreducible` is the set of unprocessed eligible cells with exactly one
  unprocessed graded boundary neighbor -/
  hcored : s.cored = derivedCored C md tr mg (PSetF C md tr mg s.mate)
  /-- `ace_candidates` is the set of unprocessed eligible cells with no
  unprocessed graded boundary neighbor -/
  haces : s.aces = derivedAces C md tr mg (PSetF C md tr mg s.mate)
  /-- cells outside the eligible matched range keep the sentinel mate -/
  hsent : ∀ x, ¬ (x ∈ Finset.range (gmN C md) ∧ gmElig C tr mg x) →
    s.mate x = -1
  /-- the graded boundary of a processed cell is processed -/
  hclosed : ∀ x ∈ PSetF C md tr mg s.mate,
    gbd C x ⊆ PSetF C md tr mg s.mate
  /-- every processed cell is an ace or a member of a matched king/queen pair
  with the queen in the graded boundary of the king -/
  hpair : ∀ x ∈ PSetF C md tr mg s.mate, s.mate x = x ∨
    ∃ K Q : ℕ, K ∈ PSetF C md tr mg s.mate ∧ Q ∈ PSetF C md tr mg s.mate ∧
      s.mate K = (Q : ℤ) ∧ s.mate Q = (K : ℤ) ∧ Q ∈ gbd C K ∧
      (x = K ∨ x = Q)
  /-- processed cells carry the priority `value·M + step` with a step below
  the current counter -/
  hprio : ∀ x ∈ PSetF C md tr mg s.mate, ∃ k : ℕ, k < s.nump ∧
    s.prio x = C.val x * (gmM C md tr mg : ℤ) + k
  /-- queens of matched pairs out-prioritize the other graded boundary
  neighbors of their king -/
  hdesc : ∀ K Q : ℕ, K ∈ PSetF C md tr mg s.mate →
    Q ∈ PSetF C md tr mg s.mate → s.mate K = (Q : ℤ) → s.mate Q = (K : ℤ) →
    Q ∈ gbd C K → ∀ x ∈ gbd C K, x ≠ Q → s.prio x < s.prio Q
  /-- the undefined-behavior branches have not been taken -/
  hub : s.ub = false

/-- The invariant holds at the initial state. -/
theorem gmInit_inv : GMInv C md tr mg (gmInit C md tr mg) := by
  have hP : PSetF C md tr mg (gmInit C md tr mg).mate = ∅ := by
    rw [Finset.eq_empty_iff_forall_not_mem]
    intro x hx
    rw [mem_PSetF] at hx
    exact hx.2.2 rfl
  have hdc : ∀ x, dcount C (∅ : Finset ℕ) x = (gbd C x).card := by
    intro x
    rw [dcount]
    congr 1
    refine Finset.filter_true_of_mem ?_
    intro y _
    exact Finset.not_mem_empty y
  constructor
  · rw [hP]; rfl
  · intro x hxr hxe
    rw [hP, hdc]
    show (if x < gmN C md ∧ gmElig C tr mg x then ((gbd C x).card : ℤ) else 0) = _
    rw [if_pos ⟨Finset.mem_range.mp hxr, hxe⟩]
  · rw [hP]
    rw [derivedCored]
    show (Finset.range (gmN C md)).filter _ = _
    refine Finset.filter_congr ?_
    intro x _
    rw [hdc]
    simp
  · rw [hP]
    rw [derivedAces]
    show (Finset.range (gmN C md)).filter _ = _
    refine Finset.filter_congr ?_
    intro x _
    rw [hdc]
    simp
  · intro x _
    rfl
  · rw [hP]; intro x hx; exact absurd hx (Finset.not_mem_empty x)
  · rw [hP]; intro x hx; exact absurd hx (Finset.not_mem_empty x)
  · rw [hP]; intro x hx; exact absurd hx (Finset.not_mem_empty x)
  · rw [hP]; intro K Q hK; exact absurd hK (Finset.not_mem_empty K)
  · rfl

theorem range_gmN_sub : Finset.range (gmN C md) ⊆ Finset.range C.n := by
  intro x hx
  rw [gmN_block] at hx
  exact Finset.mem_range.mpr hx.1

/-- A coreducible cell has exactly one unmatched graded boundary neighbor,
and the mate-finding scan (lines 159-163) finds it. -/
theorem gmQueenExtract (s : GMState) (hinv : GMInv C md tr mg s) (K : ℕ)
    (hK : K ∈ s.cored) :
    ∃ Q, (listOf ((gbd C K).filter (fun x => s.mate x = -1))).head? = some Q ∧
      Q ∈ gbd C K ∧ Q ∉ PSetF C md tr mg s.mate ∧
      Q ∈ Finset.range (gmN C md) ∧ gmElig C tr mg Q ∧
      (∀ z ∈ gbd C K, z ≠ Q → z ∈ PSetF C md tr mg s.mate) := by
  rw [hinv.hcored, mem_derivedCored] at hK
  obtain ⟨hKr, hKe, hKP, hKd⟩ := hK
  have hfeq : (gbd C K).filter (fun x => s.mate x = -1) =
      (gbd C K).filter (fun x => x ∉ PSetF C md tr mg s.mate) := by
    refine Finset.filter_congr ?_
    intro z hz
    obtain ⟨hzr, hze, -, -⟩ := gbd_mem C md tr mg K z hKr hKe hz
    rw [mem_PSetF]
    constructor
    · intro h1 h2
      exact h2.2.2 h1
    · intro h1
      by_contra h2
      exact h1 ⟨hzr, hze, h2⟩
  rw [dcount] at hKd
  obtain ⟨Q, hQ⟩ := Finset.card_eq_one.mp hKd
  have hQmem : Q ∈ (gbd C K).filter
      (fun x => x ∉ PSetF C md tr mg s.mate) := by
    rw [hQ]; exact Finset.mem_singleton_self Q
  rw [Finset.mem_filter] at hQmem
  refine ⟨Q, ?_, hQmem.1, hQmem.2, ?_, ?_, ?_⟩
  · rw [hfeq, hQ, listOf_singleton]
    rfl
  · exact (gbd_mem C md tr mg K Q hKr hKe hQmem.1).1
  · exact (gbd_mem C md tr mg K Q hKr hKe hQmem.1).2.1
  · intro z hz hzQ
    by_contra hzP
    have : z ∈ (gbd C K).filter (fun x => x ∉ PSetF C md tr mg s.mate) :=
      Finset.mem_filter.mpr ⟨hz, hzP⟩
    rw [hQ, Finset.mem_singleton] at this
    exact hzQ this

/-- The graded boundary of the extracted queen is already processed: by
`∂∂ = 0` each of its members also lies in the graded boundary of another
(already processed) graded boundary neighbor of the king, and the closure
property forces the grades to agree along the way. -/
theorem gmQueenBdProcessed
    (hv : ∀ x ∈ Finset.range (gmN C md), gmElig C tr mg x →
      ∀ y ∈ C.bd x, C.val y ≤ C.val x)
    (hdd : C.DDEven) (P : Finset ℕ)
    (hPcl : ∀ x ∈ P, gbd C x ⊆ P)
    (K Q : ℕ) (hKr : K ∈ Finset.range (gmN C md)) (hKe : gmElig C tr mg K)
    (hQgbd : Q ∈ gbd C K)
    (hrest : ∀ z ∈ gbd C K, z ≠ Q → z ∈ P) :
    gbd C Q ⊆ P := by
  intro y hy
  have hQbd : Q ∈ C.bd K := (Finset.mem_filter.mp hQgbd).1
  have hQval : C.val Q = C.val K := (Finset.mem_filter.mp hQgbd).2
  have hybd : y ∈ C.bd Q := (Finset.mem_filter.mp hy).1
  have hyval : C.val y = C.val Q := (Finset.mem_filter.mp hy).2
  obtain ⟨Q', hQ'bd, hne, hyQ'⟩ :=
    hdd K (range_gmN_sub C md hKr) Q hQbd y hybd
  have hQ'r : Q' ∈ Finset.range (gmN C md) := bd_mem_range C md K Q' hKr hQ'bd
  have hQ'leK : C.val Q' ≤ C.val K := hv K hKr hKe Q' hQ'bd
  have hQ'e : gmElig C tr mg Q' := fun htr => le_trans hQ'leK (hKe htr)
  have hyleQ' : C.val y ≤ C.val Q' := hv Q' hQ'r hQ'e y hyQ'
  have hQ'val : C.val Q' = C.val K := by omega
  have hyQ'val : C.val y = C.val Q' := by omega
  have hQ'gbd : Q' ∈ gbd C K := Finset.mem_filter.mpr ⟨hQ'bd, hQ'val⟩
  have hQ'P : Q' ∈ P := hrest Q' hQ'gbd hne
  exact hPcl Q' hQ'P (Finset.mem_filter.mpr ⟨hyQ', hyQ'val⟩)

/-- Hypothesis bundle: the grading of the scanned cells satisfies the closure
property (no throw) and the complex satisfies GF(2) `∂∂ = 0`. -/
def GMHyp : Prop :=
  (∀ x ∈ Finset.range (gmN C md), gmElig C tr mg x →
    ∀ y ∈ C.bd x, C.val y ≤ C.val x) ∧ C.DDEven

/-- One iteration of the main loop preserves the invariant and advances
`num_processed`. -/
theorem gmStep_inv (hyp : GMHyp C md tr mg)
    (s : GMState) (hinv : GMInv C md tr mg s)
    (hrun : s.nump < gmM C md tr mg) :
    GMInv C md tr mg (gmStep C md tr mg s) ∧
      s.nump + 1 ≤ (gmStep C md tr mg s).nump := by
  obtain ⟨hv, hdd⟩ := hyp
  have hPsubr : ∀ z ∈ PSetF C md tr mg s.mate,
      z ∈ Finset.range (gmN C md) ∧ gmElig C tr mg z := by
    intro z hz
    rw [mem_PSetF] at hz
    exact ⟨hz.1, hz.2.1⟩
  by_cases h : s.cored.Nonempty
  · -- coreducible branch
    have hKmem : s.cored.min' h ∈ s.cored := s.cored.min'_mem h
    obtain ⟨Q, hhead, hQgbd, hQP, hQr, hQe, hrest⟩ :=
      gmQueenExtract C md tr mg s hinv (s.cored.min' h) hKmem
    have hKfacts : s.cored.min' h ∈
        derivedCored C md tr mg (PSetF C md tr mg s.mate) := by
      rw [← hinv.hcored]
      exact hKmem
    rw [mem_derivedCored] at hKfacts
    obtain ⟨hKr, hKe, hKP, hKd⟩ := hKfacts
    have hKQ : s.cored.min' h ≠ Q := by
      intro hkq
      rw [hkq] at hQgbd
      exact not_mem_gbd_self C md Q hQr hQgbd
    have hstep : gmStep C md tr mg s =
        gmProcess C md tr mg (s.cored.min' h)
          (gmProcess C md tr mg Q
            { s with cored := s.cored.erase (s.cored.min' h),
                     mate := Function.update
                       (Function.update s.mate (s.cored.min' h) (Q : ℤ))
                       Q ((s.cored.min' h : ℕ) : ℤ) }) := by
      rw [gmStep, dif_pos h, hhead]
    rw [hstep]
    -- abbreviations
    set K := s.cored.min' h with hKdef
    set P := PSetF C md tr mg s.mate with hPdef
    set m2 := Function.update (Function.update s.mate K (Q : ℤ)) Q
      ((K : ℕ) : ℤ) with hm2def
    set s2 : GMState := { s with cored := s.cored.erase K, mate := m2 }
      with hs2def
    have hQbdP : gbd C Q ⊆ P :=
      gmQueenBdProcessed C md tr mg hv hdd P hinv.hclosed K Q hKr hKe
        hQgbd hrest
    have hKgbd_sub : gbd C K ⊆ insert Q P := by
      intro z hz
      by_cases hzQ : z = Q
      · rw [hzQ]; exact Finset.mem_insert_self Q P
      · exact Finset.mem_insert_of_mem (hrest z hz hzQ)
    -- effect of processing Q
    have heff1 := gmProcess_effect C md tr mg s2 Q P {K} ∅
      (by intro x hxr hxe
          exact hinv.hbc x hxr hxe)
      (by show s.cored.erase K = _
          rw [hinv.hcored, Finset.erase_eq])
      (by show s.aces = _
          rw [hinv.haces, Finset.sdiff_empty])
      hQr hQe hQP hinv.hclosed
      (by intro e he
          rw [Finset.mem_singleton] at he
          subst he
          refine Or.inr ⟨?_, hKP, hKd⟩
          rw [gcbd_eq, Finset.mem_filter]
          exact ⟨hKr, hQgbd⟩)
      (by intro e he; exact absurd he (Finset.not_mem_empty e))
    obtain ⟨hbc1, hcor1, hac1⟩ := heff1
    -- effect of processing K
    have hKP1 : K ∉ insert Q P := by
      rw [Finset.mem_insert]
      rintro (hc | hc)
      · exact hKQ hc
      · exact hKP hc
    have hP1cl : ∀ x ∈ insert Q P, gbd C x ⊆ insert Q P := by
      intro x hx
      rw [Finset.mem_insert] at hx
      rcases hx with rfl | hx
      · exact fun z hz => Finset.mem_insert_of_mem (hQbdP hz)
      · exact fun z hz => Finset.mem_insert_of_mem (hinv.hclosed x hx hz)
    have heff2 := gmProcess_effect C md tr mg
      (gmProcess C md tr mg Q s2) K (insert Q P) ∅ ∅
      (by intro x hxr hxe; exact hbc1 x hxr hxe)
      (by rw [hcor1, Finset.sdiff_empty])
      (by rw [hac1, Finset.sdiff_empty])
      hKr hKe hKP1 hP1cl
      (by intro e he; exact absurd he (Finset.not_mem_empty e))
      (by intro e he; exact absurd he (Finset.not_mem_empty e))
    obtain ⟨hbc2, hcor2, hac2⟩ := heff2
    -- the processed set after the two updates
    have hPF : PSetF C md tr mg
        (gmProcess C md tr mg K (gmProcess C md tr mg Q s2)).mate =
        insert K (insert Q P) := by
      rw [gmProcess_mate, gmProcess_mate]
      show PSetF C md tr mg m2 = _
      rw [hm2def, hPdef]
      rw [PSetF_update_pair C md tr mg s.mate K Q hKr hKe hQr hQe hKQ]
      exact Finset.Insert.comm Q K (PSetF C md tr mg s.mate)
    have hmatF : (gmProcess C md tr mg K
        (gmProcess C md tr mg Q s2)).mate = m2 := rfl
    have hm2K : m2 K = (Q : ℤ) := by
      rw [hm2def, Function.update_noteq hKQ, Function.update_same]
    have hm2Q : m2 Q = ((K : ℕ) : ℤ) := by
      rw [hm2def, Function.update_same]
    have hm2other : ∀ z, z ≠ K → z ≠ Q → m2 z = s.mate z := by
      intro z h1 h2
      rw [hm2def, Function.update_noteq h2, Function.update_noteq h1]
    have hprioF : (gmProcess C md tr mg K
        (gmProcess C md tr mg Q s2)).prio =
        Function.update
          (Function.update s.prio Q
            (C.val Q * (gmM C md tr mg : ℤ) + s.nump)) K
          (C.val K * (gmM C md tr mg : ℤ) + (s.nump + 1)) := by
      rw [gmProcess_prio, gmProcess_prio]
      rfl
    have hnumpF : (gmProcess C md tr mg K
        (gmProcess C md tr mg Q s2)).nump = s.nump + 2 := rfl
    have hQKcard : (insert K (insert Q P)).card = P.card + 2 := by
      rw [Finset.card_insert_of_not_mem hKP1,
        Finset.card_insert_of_not_mem hQP]
    refine ⟨⟨?_, ?_, ?_, ?_, ?_, ?_, ?_, ?_, ?_, ?_⟩, ?_⟩
    · -- hnump
      rw [hnumpF, hPF, hQKcard, hinv.hnump]
    · -- hbc
      rw [hPF]
      exact hbc2
    · -- hcored
      rw [hPF]
      exact hcor2
    · -- haces
      rw [hPF]
      exact hac2
    · -- hsent
      intro x hx
      rw [hmatF]
      have hxK : x ≠ K := by rintro rfl; exact hx ⟨hKr, hKe⟩
      have hxQ : x ≠ Q := by rintro rfl; exact hx ⟨hQr, hQe⟩
      rw [hm2other x hxK hxQ]
      exact hinv.hsent x hx
    · -- hclosed
      rw [hPF]
      intro x hx
      rw [Finset.mem_insert, Finset.mem_insert] at hx
      rcases hx with rfl | rfl | hx
      · intro z hz
        rcases Finset.mem_insert.mp (hKgbd_sub hz) with rfl | hzP
        · exact Finset.mem_insert_of_mem (Finset.mem_insert_self _ _)
        · exact Finset.mem_insert_of_mem (Finset.mem_insert_of_mem hzP)
      · intro z hz
        exact Finset.mem_insert_of_mem (Finset.mem_insert_of_mem (hQbdP hz))
      · intro z hz
        exact Finset.mem_insert_of_mem
          (Finset.mem_insert_of_mem (hinv.hclosed x hx hz))
    · -- hpair
      rw [hPF, hmatF]
      intro x hx
      rw [Finset.mem_insert, Finset.mem_insert] at hx
      rcases hx with hxk | hxq | hx
      · exact Or.inr ⟨K, Q, Finset.mem_insert_self _ _,
          Finset.mem_insert_of_mem (Finset.mem_insert_self _ _),
          hm2K, hm2Q, hQgbd, Or.inl hxk⟩
      · exact Or.inr ⟨K, Q, Finset.mem_insert_self _ _,
          Finset.mem_insert_of_mem (Finset.mem_insert_self _ _),
          hm2K, hm2Q, hQgbd, Or.inr hxq⟩
      · have hxK : x ≠ K := by rintro rfl; exact hKP hx
        have hxQ : x ≠ Q := by rintro rfl; exact hQP hx
        rcases hinv.hpair x hx with hself | ⟨K0, Q0, hK0, hQ0, hmm1, hmm2, hg, hor⟩
        · left
          rw [hm2other x hxK hxQ]
          exact hself
        · right
          have hK0K : K0 ≠ K := by rintro rfl; exact hKP hK0
          have hK0Q : K0 ≠ Q := by rintro rfl; exact hQP hK0
          have hQ0K : Q0 ≠ K := by rintro rfl; exact hKP hQ0
          have hQ0Q : Q0 ≠ Q := by rintro rfl; exact hQP hQ0
          exact ⟨K0, Q0,
            Finset.mem_insert_of_mem (Finset.mem_insert_of_mem hK0),
            Finset.mem_insert_of_mem (Finset.mem_insert_of_mem hQ0),
            by rw [hm2other K0 hK0K hK0Q]; exact hmm1,
            by rw [hm2other Q0 hQ0K hQ0Q]; exact hmm2, hg, hor⟩
    · -- hprio
      rw [hPF, hprioF, hnumpF]
      intro x hx
      rw [Finset.mem_insert, Finset.mem_insert] at hx
      rcases hx with hxk | hxq | hx
      · refine ⟨s.nump + 1, by omega, ?_⟩
        rw [hxk, Function.update_same]
        push_cast
        ring
      · refine ⟨s.nump, by omega, ?_⟩
        rw [hxq, Function.update_noteq (fun hc => hKQ hc.symm),
          Function.update_same]
      · obtain ⟨k, hk, heq⟩ := hinv.hprio x hx
        have hxK : x ≠ K := by rintro rfl; exact hKP hx
        have hxQ : x ≠ Q := by rintro rfl; exact hQP hx
        refine ⟨k, by omega, ?_⟩
        rw [Function.update_noteq hxK, Function.update_noteq hxQ]
        exact heq
    · -- hdesc
      rw [hPF, hmatF, hprioF]
      intro K0 Q0 hK0 hQ0 hmm1 hmm2 hg x hxg hxQ0
      rw [Finset.mem_insert, Finset.mem_insert] at hK0
      have hKrn : K ∈ Finset.range C.n := range_gmN_sub C md hKr
      have hQrn : Q ∈ Finset.range C.n := range_gmN_sub C md hQr
      rcases hK0 with hk0 | hk0 | hK0P
      · -- the fresh pair: K0 = K so Q0 = Q
        have hQ0Q : Q0 = Q := by
          have h1 := hmm1
          rw [hk0, hm2K] at h1
          exact_mod_cast h1.symm
        have hxP : x ∈ P := by
          refine hrest x ?_ ?_
          · rw [← hk0]; exact hxg
          · intro hc; exact hxQ0 (hc.trans hQ0Q.symm)
        have hxK : x ≠ K := fun hc => hKP (hc ▸ hxP)
        have hxQb : x ≠ Q := fun hc => hQP (hc ▸ hxP)
        have hxQ0' : x ≠ Q0 := hxQ0
        obtain ⟨kx, hkx, heqx⟩ := hinv.hprio x hxP
        rw [Function.update_noteq hxK, Function.update_noteq hxQb, hQ0Q,
          Function.update_noteq (fun hc => hKQ hc.symm),
          Function.update_same, heqx]
        have hvx : C.val x = C.val K := by
          have h2 := (Finset.mem_filter.mp hxg).2
          rw [hk0] at h2
          exact h2
        have hvQ : C.val Q = C.val K := (Finset.mem_filter.mp hQgbd).2
        rw [hvx, hvQ]
        omega
      · -- impossible: the queen cannot be a king of the fresh pair
        exfalso
        have hQ0K : Q0 = K := by
          have h1 := hmm1
          rw [hk0, hm2Q] at h1
          exact_mod_cast h1.symm
        rw [hk0, hQ0K] at hg
        exact gbd_asymm C K Q hKrn hQrn hg hQgbd
      · -- an old pair
        have hK0K : K0 ≠ K := fun hc => hKP (hc ▸ hK0P)
        have hK0Q : K0 ≠ Q := fun hc => hQP (hc ▸ hK0P)
        have hmm1' : s.mate K0 = (Q0 : ℤ) := by
          rw [← hm2other K0 hK0K hK0Q]; exact hmm1
        rcases hinv.hpair K0 hK0P with hself | ⟨K1, Q1, hK1, hQ1, hn1, hn2, hg1, hor⟩
        · exfalso
          have hq : Q0 = K0 := by
            rw [hself] at hmm1'
            exact_mod_cast hmm1'.symm
          rw [hq] at hg
          exact not_mem_gbd_self C md K0 (hPsubr K0 hK0P).1 hg
        · rcases hor with hor1 | hor1
          · -- K0 is the king of an old pair
            have hn1' : s.mate K0 = (Q1 : ℤ) := by rw [hor1]; exact hn1
            have hQ0Q1 : Q0 = Q1 := by
              have h3 := hn1'.symm.trans hmm1'
              exact_mod_cast h3.symm
            have hQ0P : Q0 ∈ P := by rw [hQ0Q1]; exact hQ1
            have hxP : x ∈ P := hinv.hclosed K0 hK0P hxg
            have hxK : x ≠ K := fun hc => hKP (hc ▸ hxP)
            have hxQb : x ≠ Q := fun hc => hQP (hc ▸ hxP)
            have hQ0K : Q0 ≠ K := fun hc => hKP (hc ▸ hQ0P)
            have hQ0Qb : Q0 ≠ Q := fun hc => hQP (hc ▸ hQ0P)
            rw [Function.update_noteq hxK, Function.update_noteq hxQb,
              Function.update_noteq hQ0K, Function.update_noteq hQ0Qb]
            have hmm2' : s.mate Q0 = (K0 : ℤ) := by
              rw [← hm2other Q0 hQ0K hQ0Qb]; exact hmm2
            exact hinv.hdesc K0 Q0 hK0P hQ0P hmm1' hmm2' hg x hxg hxQ0
          · -- impossible: K0 is the queen of an old pair
            exfalso
            have hn2' : s.mate K0 = (K1 : ℤ) := by rw [hor1]; exact hn2
            have hQ0K1 : Q0 = K1 := by
              have h3 := hn2'.symm.trans hmm1'
              exact_mod_cast h3.symm
            rw [hor1, hQ0K1] at hg
            exact gbd_asymm C K1 Q1
              (range_gmN_sub C md (hPsubr K1 hK1).1)
              (range_gmN_sub C md (hPsubr Q1 hQ1).1) hg hg1
    · -- hub
      rw [gmProcess_ub, gmProcess_ub]
      exact hinv.hub
    · -- nump progress
      rw [hnumpF]
      omega
  · rw [gmStep, dif_neg h]
    by_cases h2 : s.aces.Nonempty
    · rw [dif_pos h2]
      set P := PSetF C md tr mg s.mate with hPdef
      have hAmem : s.aces.min' h2 ∈ s.aces := s.aces.min'_mem h2
      have hAfacts : s.aces.min' h2 ∈
          derivedAces C md tr mg (PSetF C md tr mg s.mate) := by
        rw [← hinv.haces]
        exact hAmem
      rw [mem_derivedAces] at hAfacts
      obtain ⟨hAr, hAe, hAP, hAd⟩ := hAfacts
      set A := s.aces.min' h2 with hAdef
      set m3 := Function.update s.mate A ((A : ℕ) : ℤ) with hm3def
      set s3 : GMState := { s with aces := s.aces.erase A, mate := m3 }
        with hs3def
      have hAbdP : gbd C A ⊆ P := by
        intro z hz
        by_contra hzP
        have hzmem : z ∈ (gbd C A).filter (fun y => y ∉ P) :=
          Finset.mem_filter.mpr ⟨hz, hzP⟩
        rw [dcount] at hAd
        rw [Finset.card_eq_zero.mp hAd] at hzmem
        exact Finset.not_mem_empty z hzmem
      have heff := gmProcess_effect C md tr mg s3 A P ∅ {A}
        (by intro x hxr hxe; exact hinv.hbc x hxr hxe)
        (by show s.cored = _
            rw [hinv.hcored, Finset.sdiff_empty])
        (by show s.aces.erase A = _
            rw [hinv.haces, Finset.erase_eq])
        hAr hAe hAP hinv.hclosed
        (by intro e he; exact absurd he (Finset.not_mem_empty e))
        (by intro e he; rw [Finset.mem_singleton] at he; exact he)
      obtain ⟨hbc1, hcor1, hac1⟩ := heff
      have hPF : PSetF C md tr mg (gmProcess C md tr mg A s3).mate =
          insert A P := by
        rw [gmProcess_mate]
        show PSetF C md tr mg m3 = _
        rw [hm3def, hPdef]
        exact PSetF_update_self C md tr mg s.mate A hAr hAe
      have hmatF : (gmProcess C md tr mg A s3).mate = m3 := rfl
      have hm3A : m3 A = ((A : ℕ) : ℤ) := by
        rw [hm3def, Function.update_same]
      have hm3other : ∀ z, z ≠ A → m3 z = s.mate z := by
        intro z h1
        rw [hm3def, Function.update_noteq h1]
      have hprioF : (gmProcess C md tr mg A s3).prio =
          Function.update s.prio A
            (C.val A * (gmM C md tr mg : ℤ) + s.nump) := by
        rw [gmProcess_prio]
      have hnumpF : (gmProcess C md tr mg A s3).nump = s.nump + 1 := rfl
      refine ⟨⟨?_, ?_, ?_, ?_, ?_, ?_, ?_, ?_, ?_, ?_⟩, ?_⟩
      · rw [hnumpF, hPF, Finset.card_insert_of_not_mem hAP, hinv.hnump]
      · rw [hPF]; exact hbc1
      · rw [hPF]; exact hcor1
      · rw [hPF]; exact hac1
      · intro x hx
        rw [hmatF]
        have hxA : x ≠ A := by rintro rfl; exact hx ⟨hAr, hAe⟩
        rw [hm3other x hxA]
        exact hinv.hsent x hx
      · rw [hPF]
        intro x hx
        rcases Finset.mem_insert.mp hx with hxa | hx
        · intro z hz
          rw [hxa] at hz
          exact Finset.mem_insert_of_mem (hAbdP hz)
        · exact fun z hz =>
            Finset.mem_insert_of_mem (hinv.hclosed x hx hz)
      · rw [hPF, hmatF]
        intro x hx
        rcases Finset.mem_insert.mp hx with hxa | hx
        · left
          rw [hxa, hm3A]
        · have hxA : x ≠ A := fun hc => hAP (hc ▸ hx)
          rcases hinv.hpair x hx with hself | ⟨K0, Q0, hK0, hQ0, hn1, hn2, hg1, hor⟩
          · left
            rw [hm3other x hxA]
            exact hself
          · right
            have hK0A : K0 ≠ A := fun hc => hAP (hc ▸ hK0)
            have hQ0A : Q0 ≠ A := fun hc => hAP (hc ▸ hQ0)
            exact ⟨K0, Q0, Finset.mem_insert_of_mem hK0,
              Finset.mem_insert_of_mem hQ0,
              by rw [hm3other K0 hK0A]; exact hn1,
              by rw [hm3other Q0 hQ0A]; exact hn2, hg1, hor⟩
      · rw [hPF, hprioF, hnumpF]
        intro x hx
        rcases Finset.mem_insert.mp hx with hxa | hx
        · refine ⟨s.nump, by omega, ?_⟩
          rw [hxa, Function.update_same]
        · obtain ⟨k, hk, heq⟩ := hinv.hprio x hx
          have hxA : x ≠ A := fun hc => hAP (hc ▸ hx)
          refine ⟨k, by omega, ?_⟩
          rw [Function.update_noteq hxA]
          exact heq
      · rw [hPF, hmatF, hprioF]
        intro K0 Q0 hK0 hQ0 hmm1 hmm2 hg x hxg hxQ0
        rcases Finset.mem_insert.mp hK0 with hk0 | hK0P
        · exfalso
          have hQ0A : Q0 = A := by
            have h1 := hmm1
            rw [hk0, hm3A] at h1
            exact_mod_cast h1.symm
          rw [hk0, hQ0A] at hg
          exact not_mem_gbd_self C md A hAr hg
        · have hK0A : K0 ≠ A := fun hc => hAP (hc ▸ hK0P)
          have hmm1' : s.mate K0 = (Q0 : ℤ) := by
            rw [← hm3other K0 hK0A]; exact hmm1
          rcases hinv.hpair K0 hK0P with hself | ⟨K1, Q1, hK1, hQ1, hn1, hn2, hg1, hor⟩
          · exfalso
            have hq : Q0 = K0 := by
              rw [hself] at hmm1'
              exact_mod_cast hmm1'.symm
            rw [hq] at hg
            exact not_mem_gbd_self C md K0 (hPsubr K0 hK0P).1 hg
          · rcases hor with hor1 | hor1
            · have hn1' : s.mate K0 = (Q1 : ℤ) := by rw [hor1]; exact hn1
              have hQ0Q1 : Q0 = Q1 := by
                have h3 := hn1'.symm.trans hmm1'
                exact_mod_cast h3.symm
              have hQ0P : Q0 ∈ P := by rw [hQ0Q1]; exact hQ1
              have hxP : x ∈ P := hinv.hclosed K0 hK0P hxg
              have hxA : x ≠ A := fun hc => hAP (hc ▸ hxP)
              have hQ0A : Q0 ≠ A := fun hc => hAP (hc ▸ hQ0P)
              rw [Function.update_noteq hxA, Function.update_noteq hQ0A]
              have hmm2' : s.mate Q0 = (K0 : ℤ) := by
                rw [← hm3other Q0 hQ0A]; exact hmm2
              exact hinv.hdesc K0 Q0 hK0P hQ0P hmm1' hmm2' hg x hxg hxQ0
            · exfalso
              have hn2' : s.mate K0 = (K1 : ℤ) := by rw [hor1]; exact hn2
              have hQ0K1 : Q0 = K1 := by
                have h3 := hn2'.symm.trans hmm1'
                exact_mod_cast h3.symm
              rw [hor1, hQ0K1] at hg
              exact gbd_asymm C K1 Q1
                (range_gmN_sub C md (hPsubr K1 hK1).1)
                (range_gmN_sub C md (hPsubr Q1 hQ1).1) hg hg1
      · rw [gmProcess_ub]
        exact hinv.hub
      · rw [hnumpF]
    · -- both working sets empty yet unprocessed cells remain: impossible
      exfalso
      set P := PSetF C md tr mg s.mate with hPdef
      have hPsub2 : P ⊆ (Finset.range (gmN C md)).filter (gmElig C tr mg) := by
        intro z hz
        rw [mem_PSetF] at hz
        exact Finset.mem_filter.mpr ⟨hz.1, hz.2.1⟩
      have hcard : P.card < gmM C md tr mg := by
        rw [← hinv.hnump]
        exact hrun
      have hUne : ∃ x ∈ (Finset.range (gmN C md)).filter (gmElig C tr mg),
          x ∉ P := by
        by_contra hc
        push_neg at hc
        have : (Finset.range (gmN C md)).filter (gmElig C tr mg) ⊆ P := hc
        have := Finset.card_le_card this
        rw [gmM] at hcard
        omega
      obtain ⟨x₁, hx₁f, hx₁P⟩ := hUne
      have hUne' : (((Finset.range (gmN C md)).filter (gmElig C tr mg)) \ P).Nonempty :=
        ⟨x₁, Finset.mem_sdiff.mpr ⟨hx₁f, hx₁P⟩⟩
      obtain ⟨x₀, hx₀U, hx₀min⟩ :=
        Finset.exists_min_image _ C.cdim hUne'
      rw [Finset.mem_sdiff, Finset.mem_filter] at hx₀U
      obtain ⟨⟨hx₀r, hx₀e⟩, hx₀P⟩ := hx₀U
      have hbd₀ : gbd C x₀ ⊆ P := by
        intro z hz
        obtain ⟨hzr, hze, hzbd, -⟩ := gbd_mem C md tr mg x₀ z hx₀r hx₀e hz
        by_contra hzP
        have hzU : z ∈ ((Finset.range (gmN C md)).filter (gmElig C tr mg)) \ P :=
          Finset.mem_sdiff.mpr ⟨Finset.mem_filter.mpr ⟨hzr, hze⟩, hzP⟩
        have hmin := hx₀min z hzU
        have hdim := C.hbd_dim x₀ (range_gmN_sub C md hx₀r) z hzbd
        omega
      have hx₀aces : x₀ ∈ s.aces := by
        rw [hinv.haces, mem_derivedAces]
        exact ⟨hx₀r, hx₀e, hx₀P, dcount_eq_zero C P x₀ hbd₀⟩
      exact h2 ⟨x₀, hx₀aces⟩

/-- The invariant is preserved by the whole loop. -/
theorem gmLoop_inv (hyp : GMHyp C md tr mg) :
    ∀ (f : ℕ) (s : GMState), GMInv C md tr mg s →
      GMInv C md tr mg (gmLoop C md tr mg f s) := by
  intro f
  induction f with
  | zero => intro s hs; exact hs
  | succ f ih =>
    intro s hs
    rw [gmLoop]
    by_cases hrun : s.nump < gmM C md tr mg
    · rw [if_pos hrun]
      exact ih _ (gmStep_inv C md tr mg hyp s hs hrun).1
    · rw [if_neg hrun]
      exact hs

/-- With fuel at least `M - num_processed` the loop processes everything. -/
theorem gmLoop_nump (hyp : GMHyp C md tr mg) :
    ∀ (f : ℕ) (s : GMState), GMInv C md tr mg s →
      gmM C md tr mg ≤ s.nump + f →
      gmM C md tr mg ≤ (gmLoop C md tr mg f s).nump := by
  intro f
  induction f with
  | zero => intro s _ hf; simpa using hf
  | succ f ih =>
    intro s hs hf
    rw [gmLoop]
    by_cases hrun : s.nump < gmM C md tr mg
    · rw [if_pos hrun]
      obtain ⟨hinv', hstep⟩ := gmStep_inv C md tr mg hyp s hs hrun
      exact ih _ hinv' (by omega)
    · rw [if_neg hrun]
      omega

/-- The constructor's final state satisfies the invariant and has processed
all `M` eligible cells. -/
theorem gmFinal_inv (hyp : GMHyp C md tr mg) :
    GMInv C md tr mg (gmFinal C md tr mg) ∧
      gmM C md tr mg ≤ (gmFinal C md tr mg).nump :=
  ⟨gmLoop_inv C md tr mg hyp _ _ (gmInit_inv C md tr mg),
   gmLoop_nump C md tr mg hyp _ _ (gmInit_inv C md tr mg) (by
     show gmM C md tr mg ≤ 0 + gmM C md tr mg
     omega)⟩

/-- At the end of the constructor every eligible cell of the matched range
has been processed. -/
theorem gmFinal_allProcessed (hyp : GMHyp C md tr mg) :
    PSetF C md tr mg (gmFinal C md tr mg).mate =
      (Finset.range (gmN C md)).filter (gmElig C tr mg) := by
  obtain ⟨hinv, hnump⟩ := gmFinal_inv C md tr mg hyp
  have hsub : PSetF C md tr mg (gmFinal C md tr mg).mate ⊆
      (Finset.range (gmN C md)).filter (gmElig C tr mg) := by
    intro z hz
    rw [mem_PSetF] at hz
    exact Finset.mem_filter.mpr ⟨hz.1, hz.2.1⟩
  refine Finset.eq_of_subset_of_card_le hsub ?_
  rw [← gmM, ← hinv.hnump]
  exact hnump

/-- Cells of the graded boundary have strictly smaller ids (cell ids ascend
with dimension). -/
theorem gbd_lt (x y : ℕ) (hx : x ∈ Finset.range (gmN C md))
    (hy : y ∈ gbd C x) : y < x := by
  have hxn : x ∈ Finset.range C.n := range_gmN_sub C md hx
  have hybd : y ∈ C.bd x := (Finset.mem_filter.mp hy).1
  have hyn : y ∈ Finset.range C.n := C.hbd_sub x hxn hybd
  have hdim := C.hbd_dim x hxn y hybd
  exact C.lt_of_cdim_lt hyn hxn (by omega)

/-- Final classification of every eligible cell of the matched range: it is
an ace, or one member of a matched pair whose queen lies in the graded
boundary of the king. -/
theorem gmFinal_classify (hyp : GMHyp C md tr mg) (x : ℕ)
    (hxr : x ∈ Finset.range (gmN C md)) (hxe : gmElig C tr mg x) :
    (gmFinal C md tr mg).mate x = x ∨
      ∃ K Q : ℕ, K ∈ Finset.range (gmN C md) ∧ Q ∈ Finset.range (gmN C md) ∧
        gmElig C tr mg K ∧ gmElig C tr mg Q ∧
        (gmFinal C md tr mg).mate K = (Q : ℤ) ∧
        (gmFinal C md tr mg).mate Q = (K : ℤ) ∧
        Q ∈ gbd C K ∧ Q < K ∧ (x = K ∨ x = Q) := by
  obtain ⟨hinv, -⟩ := gmFinal_inv C md tr mg hyp
  have hxP : x ∈ PSetF C md tr mg (gmFinal C md tr mg).mate := by
    rw [gmFinal_allProcessed C md tr mg hyp]
    exact Finset.mem_filter.mpr ⟨hxr, hxe⟩
  rcases hinv.hpair x hxP with hself | ⟨K, Q, hK, hQ, h1, h2, hg, hor⟩
  · exact Or.inl hself
  · right
    have hKr := (mem_PSetF C md tr mg _ K).mp hK
    have hQr := (mem_PSetF C md tr mg _ Q).mp hQ
    exact ⟨K, Q, hKr.1, hQr.1, hKr.2.1, hQr.2.1, h1, h2, hg,
      gbd_lt C md K Q hKr.1 hg, hor⟩

/-!
### The sentinel invariant, independent of any well-formedness hypotheses
-/

theorem listOf_head?_mem (s : Finset ℕ) (a : ℕ)
    (h : (listOf s).head? = some a) : a ∈ s := by
  rw [← mem_listOf]
  cases hl : listOf s with
  | nil => rw [hl] at h; simp at h
  | cons b l =>
    rw [hl] at h
    simp at h
    rw [h]
    exact List.mem_cons_self a l

/-- The weak invariant that holds with no hypotheses on the complex: cells
outside the eligible matched range keep the sentinel mate `-1`, and the
working sets stay inside the eligible matched range. -/
structure GMInv0 (s : GMState) : Prop where
  hsent : ∀ x, ¬ (x ∈ Finset.range (gmN C md) ∧ gmElig C tr mg x) →
    s.mate x = -1
  hcor : s.cored ⊆ (Finset.range (gmN C md)).filter (gmElig C tr mg)
  hace : s.aces ⊆ (Finset.range (gmN C md)).filter (gmElig C tr mg)

theorem gmInit_inv0 : GMInv0 C md tr mg (gmInit C md tr mg) := by
  constructor
  · intro x _; rfl
  · intro z hz
    rw [gmInit] at hz
    rw [Finset.mem_filter] at hz ⊢
    exact ⟨hz.1, hz.2.1⟩
  · intro z hz
    rw [gmInit] at hz
    rw [Finset.mem_filter] at hz ⊢
    exact ⟨hz.1, hz.2.1⟩

theorem gmProcess_inv0 (s : GMState) (y : ℕ)
    (hye : gmElig C tr mg y) (h0 : GMInv0 C md tr mg s) :
    GMInv0 C md tr mg (gmProcess C md tr mg y s) := by
  have hgc : (gcbd C md y) ⊆
      (Finset.range (gmN C md)).filter (gmElig C tr mg) := by
    intro z hz
    obtain ⟨h1, h2, -⟩ := gcbd_mem C md tr mg y z hye hz
    exact Finset.mem_filter.mpr ⟨h1, h2⟩
  constructor
  · intro x hx
    rw [gmProcess_mate]
    exact h0.hsent x hx
  · rw [gmProcess_cored]
    intro z hz
    rw [Finset.mem_sdiff, Finset.mem_union] at hz
    rcases hz.1 with hz1 | hz1
    · exact h0.hcor (Finset.mem_of_mem_erase hz1)
    · exact hgc (Finset.mem_filter.mp hz1).1
  · rw [gmProcess_aces]
    intro z hz
    rw [Finset.mem_union] at hz
    rcases hz with hz1 | hz1
    · exact h0.hace (Finset.mem_of_mem_erase hz1)
    · exact hgc (Finset.mem_filter.mp hz1).1

theorem gmStep_inv0 (s : GMState) (h0 : GMInv0 C md tr mg s) :
    GMInv0 C md tr mg (gmStep C md tr mg s) := by
  rw [gmStep]
  by_cases h : s.cored.Nonempty
  · rw [dif_pos h]
    have hKmem := s.cored.min'_mem h
    have hKf := Finset.mem_filter.mp (h0.hcor hKmem)
    cases hhead : (listOf ((gbd C (s.cored.min' h)).filter
        (fun x => s.mate x = -1))).head? with
    | none =>
      constructor
      · intro x hx; exact h0.hsent x hx
      · intro z hz
        exact h0.hcor (Finset.mem_of_mem_erase hz)
      · intro z hz; exact h0.hace hz
    | some Q =>
      have hQmem := listOf_head?_mem _ _ hhead
      rw [Finset.mem_filter] at hQmem
      have hQf := gbd_mem C md tr mg (s.cored.min' h) Q hKf.1 hKf.2 hQmem.1
      refine gmProcess_inv0 C md tr mg _ _ hKf.2 ?_
      refine gmProcess_inv0 C md tr mg _ _ hQf.2.1 ?_
      constructor
      · intro x hx
        have hxK : x ≠ s.cored.min' h := by
          rintro rfl; exact hx ⟨hKf.1, hKf.2⟩
        have hxQ : x ≠ Q := by
          rintro rfl; exact hx ⟨hQf.1, hQf.2.1⟩
        show Function.update (Function.update s.mate _ _) Q _ x = -1
        rw [Function.update_noteq hxQ, Function.update_noteq hxK]
        exact h0.hsent x hx
      · intro z hz
        exact h0.hcor (Finset.mem_of_mem_erase hz)
      · intro z hz; exact h0.hace hz
  · rw [dif_neg h]
    by_cases h2 : s.aces.Nonempty
    · rw [dif_pos h2]
      have hAmem := s.aces.min'_mem h2
      have hAf := Finset.mem_filter.mp (h0.hace hAmem)
      refine gmProcess_inv0 C md tr mg _ _ hAf.2 ?_
      constructor
      · intro x hx
        have hxA : x ≠ s.aces.min' h2 := by
          rintro rfl; exact hx ⟨hAf.1, hAf.2⟩
        show Function.update s.mate _ _ x = -1
        rw [Function.update_noteq hxA]
        exact h0.hsent x hx
      · intro z hz; exact h0.hcor hz
      · intro z hz
        exact h0.hace (Finset.mem_of_mem_erase hz)
    · rw [dif_neg h2]
      constructor
      · intro x hx; exact h0.hsent x hx
      · intro z hz; exact h0.hcor hz
      · intro z hz; exact h0.hace hz

theorem gmLoop_inv0 : ∀ (f : ℕ) (s : GMState), GMInv0 C md tr mg s →
    GMInv0 C md tr mg (gmLoop C md tr mg f s) := by
  intro f
  induction f with
  | zero => intro s hs; exact hs
  | succ f ih =>
    intro s hs
    rw [gmLoop]
    by_cases hrun : s.nump < gmM C md tr mg
    · rw [if_pos hrun]
      exact ih _ (gmStep_inv0 C md tr mg s hs)
    · rw [if_neg hrun]
      exact hs

/-- Unconditionally, every cell outside the eligible matched range keeps the
sentinel mate `-1` in the final mate array. -/
theorem gmFinal_sent (x : ℕ)
    (hx : ¬ (x ∈ Finset.range (gmN C md) ∧ gmElig C tr mg x)) :
    (gmFinal C md tr mg).mate x = -1 :=
  (gmLoop_inv0 C md tr mg _ _ (gmInit_inv0 C md tr mg)).hsent x hx

/-- Concrete single-edge complex (spec scenario S1): cells `0, 1` are
vertices, cell `2` is the edge with boundary `{0, 1}`. -/
def edgeBd : ℕ → Finset ℕ := fun x => if x = 2 then {0, 1} else ∅

/-- The matching of the single-edge complex that `GenericMorseMatching`
produces: vertex `0` is critical, vertex `1` is the queen of the edge `2`. -/
def edgeMate : ℤ → ℤ := fun x => if x = 1 then 2 else if x = 2 then 1 else
  if x = 0 then 0 else -1

/-- Priorities assigned by `GenericMorseMatching` on the single-edge
complex. -/
def edgePr : ℤ → ℤ := fun x => if x = 0 then 0 else if x = 1 then 1 else
  if x = 2 then 2 else 0

/-- Witness for claim C1: on the single-edge complex, flowing the chain `{1}`
returns `canonical = {0}`, `gamma = {2}`, and indeed
`{0} ∆ boundary({2}) = {1}`. -/
theorem flow_law_witness :
    ({0} : Finset ℕ) ∆ chainExt edgeBd {2} = {1} :=
  flow_law edgeBd edgeMate edgePr 5 {1} {0} {2} (by decide)

/-- The single-edge complex as a graded complex, all grades `0`. -/
def edgeCx : GCx where
  n := 3
  bd := edgeBd
  cdim := fun x => if x = 2 then 1 else 0
  val := fun _ => 0
  hbd_sub := by decide
  hbd_dim := by decide
  hsorted := by decide

/-- Solid triangle (spec scenario S3): vertices `0,1,2`, edges `3 = [01]`,
`4 = [02]`, `5 = [12]`, and the 2-cell `6`. -/
def triBd : ℕ → Finset ℕ := fun x =>
  if x = 3 then {0, 1} else if x = 4 then {0, 2} else if x = 5 then {1, 2}
  else if x = 6 then {3, 4, 5} else ∅

/-- The solid triangle as a graded complex, all grades `0`. -/
def triCx : GCx where
  n := 7
  bd := triBd
  cdim := fun x => if x ≤ 2 then 0 else if x ≤ 5 then 1 else 2
  val := fun _ => 0
  hbd_sub := by decide
  hbd_dim := by decide
  hsorted := by decide

/-- A vertex `0` of grade `7` under an edge `1` of grade `5`: the grading
violates the closure property, but with `truncate = true, max_grade = 2`
both cells are skipped by the constructor. -/
def tvCx : GCx where
  n := 2
  bd := fun x => if x = 1 then {0} else ∅
  cdim := fun x => if x = 1 then 1 else 0
  val := fun x => if x = 1 then 5 else 7
  hbd_sub := by decide
  hbd_dim := by decide
  hsorted := by decide

/-- With the default `match_dim = -1` the matched range is the whole
complex. -/
theorem gmN_default (C : GCx) : gmN C (-1) = C.n := by
  rw [gmN, gmD]
  rw [if_neg (by omega)]
  have : (Finset.range C.n).filter (fun x => C.cdim x ≤ C.dimension) =
      Finset.range C.n := by
    refine Finset.filter_true_of_mem ?_
    intro x hx
    exact Finset.le_sup hx
  rw [this, Finset.card_range]

/-- Claim C10.  When `GenericMorseMatching` is constructed with
`truncate = true`, every cell whose grade strictly exceeds `max_grade` keeps
the initial sentinel mate: `mate(x)` returns `-1`, not `x` and not any cell
id. -/
theorem truncated_mate_sentinel (C : GCx) (mg : ℤ) (x : ℤ)
    (hx0 : 0 ≤ x) (hxn : x < (C.n : ℤ)) (hval : mg < C.val x.toNat) :
    gmMate C (-1) true mg x = -1 := by
  rw [gmMate, gmN_default, if_pos ⟨hx0, hxn⟩]
  refine gmFinal_sent C (-1) true mg x.toNat ?_
  rintro ⟨-, he⟩
  have := he rfl
  omega

/-- Witness for claim C10 on the concrete truncated complex: the edge of
grade `5` exceeds `max_grade = 2` and keeps mate `-1`. -/
theorem truncated_mate_sentinel_witness : gmMate tvCx (-1) true 2 1 = -1 :=
  truncated_mate_sentinel tvCx 2 1 (by decide) (by decide) (by decide)

/-- Counterexample to claim C4 as stated: for the matching that
`GenericMorseMatching` produces on `tvCx` with `truncate = true,
max_grade = 2`, the edge `1` is a cell of the underlying complex with
`mate(mate(1)) = -1 ≠ 1`: `mate` is not an involution on all cells. -/
theorem mate_involution_counterexample :
    gmMate tvCx (-1) true 2 (gmMate tvCx (-1) true 2 1) ≠ 1 := by decide

/-- Generic half of the amended claim C4: on every eligible cell of the
matched range, the mate of `GenericMorseMatching` is an involution. -/
theorem gmMate_involution (C : GCx) (md : ℤ) (tr : Bool) (mg : ℤ)
    (hyp : GMHyp C md tr mg) (x : ℤ) (h0 : 0 ≤ x)
    (hN : x < (gmN C md : ℤ)) (he : gmElig C tr mg x.toNat) :
    gmMate C md tr mg (gmMate C md tr mg x) = x := by
  have hxr : x.toNat ∈ Finset.range (gmN C md) := by
    rw [Finset.mem_range]
    omega
  have hx : ((x.toNat : ℕ) : ℤ) = x := by omega
  have hinner : gmMate C md tr mg x = (gmFinal C md tr mg).mate x.toNat := by
    rw [gmMate, if_pos ⟨h0, hN⟩]
  rcases gmFinal_classify C md tr mg hyp x.toNat hxr he with hself |
    ⟨K, Q, hKr, hQr, hKe, hQe, hmK, hmQ, hg, hQK, hor⟩
  · rw [hinner, hself, hx, hinner, hself]
    exact hx
  · have hKN : (K : ℤ) < (gmN C md : ℤ) := by
      have := Finset.mem_range.mp hKr
      omega
    have hQN : (Q : ℤ) < (gmN C md : ℤ) := by
      have := Finset.mem_range.mp hQr
      omega
    rcases hor with hk | hq
    · rw [hinner, hk, hmK, gmMate, if_pos ⟨by omega, hQN⟩,
        Int.toNat_natCast, hmQ, ← hk]
      exact hx
    · rw [hinner, hq, hmQ, gmMate, if_pos ⟨by omega, hKN⟩,
        Int.toNat_natCast, hmK, ← hq]
      exact hx

/-- A cell is the queen of a matched pair of the final generic matching. -/
def gmIsQueenOf (C : GCx) (md : ℤ) (tr : Bool) (mg : ℤ) (x : ℕ) : Prop :=
  ∃ k : ℕ, k ∈ Finset.range (gmN C md) ∧
    (gmFinal C md tr mg).mate x = (k : ℤ) ∧
    (gmFinal C md tr mg).mate k = (x : ℤ) ∧ x ∈ gbd C k

/-- A cell is the king of a matched pair of the final generic matching. -/
def gmIsKingOf (C : GCx) (md : ℤ) (tr : Bool) (mg : ℤ) (x : ℕ) : Prop :=
  ∃ q : ℕ, q ∈ Finset.range (gmN C md) ∧
    (gmFinal C md tr mg).mate x = (q : ℤ) ∧
    (gmFinal C md tr mg).mate q = (x : ℤ) ∧ q ∈ gbd C x

/-- Generic half of the amended claim C9: on eligible cells of the matched
range, the predicates `x < mate(x)` and `x > mate(x)` of `MorseComplex`
classify exactly the queens and the kings of the matching, and each queen
has a strictly larger king. -/
theorem gmClassification (C : GCx) (md : ℤ) (tr : Bool) (mg : ℤ)
    (hyp : GMHyp C md tr mg) (x : ℕ)
    (hxr : x ∈ Finset.range (gmN C md)) (hxe : gmElig C tr mg x) :
    (((x : ℤ) < (gmFinal C md tr mg).mate x) ↔
      gmIsQueenOf C md tr mg x) ∧
    (((gmFinal C md tr mg).mate x < (x : ℤ)) ↔
      gmIsKingOf C md tr mg x) := by
  have hxrn : x ∈ Finset.range C.n := range_gmN_sub C md hxr
  rcases gmFinal_classify C md tr mg hyp x hxr hxe with hself |
    ⟨K, Q, hKr, hQr, hKe, hQe, hmK, hmQ, hg, hQK, hor⟩
  · constructor
    · constructor
      · intro hlt
        rw [hself] at hlt
        omega
      · rintro ⟨k, hkr, hk1, hk2, hgk⟩
        rw [hself] at hk1
        have : x = k := by exact_mod_cast hk1
        rw [this] at hgk
        exact absurd hgk (not_mem_gbd_self C md k (this ▸ hxr))
    · constructor
      · intro hlt
        rw [hself] at hlt
        omega
      · rintro ⟨q, hqr, hq1, hq2, hgq⟩
        rw [hself] at hq1
        have : x = q := by exact_mod_cast hq1
        rw [this] at hgq
        exact absurd hgq (not_mem_gbd_self C md q (this ▸ hqr))
  · rcases hor with hk | hq
    · -- x is the king
      subst hk
      constructor
      · constructor
        · intro hlt
          rw [hmK] at hlt
          omega
        · rintro ⟨k, hkr, hk1, hk2, hgk⟩
          have hkQ : k = Q := by
            rw [hmK] at hk1
            exact_mod_cast hk1.symm
          rw [hkQ] at hgk
          exact absurd (gbd_asymm C x Q (range_gmN_sub C md hxr)
            (range_gmN_sub C md hQr) hgk hg) (fun hc => hc)
      · constructor
        · intro _
          exact ⟨Q, hQr, hmK, hmQ, hg⟩
        · intro _
          rw [hmK]
          exact_mod_cast hQK
    · -- x is the queen
      subst hq
      constructor
      · constructor
        · intro _
          exact ⟨K, hKr, hmQ, hmK, hg⟩
        · intro _
          rw [hmQ]
          exact_mod_cast hQK
      · constructor
        · intro hlt
          rw [hmQ] at hlt
          omega
        · rintro ⟨q, hqr, hq1, hq2, hgq⟩
          have hqK : q = K := by
            rw [hmQ] at hq1
            exact_mod_cast hq1.symm
          rw [hqK] at hgq
          exact absurd (gbd_asymm C K x (range_gmN_sub C md hKr)
            (range_gmN_sub C md hxr) hgq hg) (fun hc => hc)

/-- Counterexample to claim C9 as stated: on the truncated matching of
`tvCx`, the cell `1` satisfies the king predicate `mate(1) < 1` although it
is not the king of any matched pair (its mate is the sentinel `-1`). -/
theorem isKing_classification_counterexample :
    gmMate tvCx (-1) true 2 1 < 1 ∧
      ∀ q : ℕ, q < tvCx.n →
        ¬ (gmMate tvCx (-1) true 2 (q : ℤ) = 1 ∧
           gmMate tvCx (-1) true 2 1 = (q : ℤ)) := by decide

/-- Counterexample to claim C7 as stated: on `tvCx` with `truncate = true,
max_grade = 2` the complex has a cell (the edge `1`) with a boundary
neighbor of strictly greater grade, yet construction does not fail, because
the violating cell is truncated and never scanned. -/
theorem closure_error_counterexample :
    ¬ gmViolation tvCx (-1) true 2 ∧
      ∃ x ∈ Finset.range tvCx.n, ∃ y ∈ tvCx.bd x,
        tvCx.val x < tvCx.val y := by decide

/-- Amended claim C7.  Construction fails with the grading-closure error iff
some scanned cell — eligible and of dimension at most the cap — has a
boundary neighbor of strictly greater grade; when the grading satisfies the
closure property on the whole complex, construction completes without
error, and on a complex with `∂∂ = 0` the main loop also never reaches the
internal undefined-behavior branches and processes every eligible cell. -/
theorem closure_error_iff (C : GCx) (md : ℤ) (tr : Bool) (mg : ℤ) :
    (gmViolation C md tr mg ↔ ∃ x ∈ Finset.range (gmN C md),
      gmElig C tr mg x ∧ ∃ y ∈ C.bd x, C.val x < C.val y) ∧
    (C.ClosureOK → ¬ gmViolation C md tr mg) ∧
    (C.ClosureOK → C.DDEven →
      (gmFinal C md tr mg).ub = false ∧
      PSetF C md tr mg (gmFinal C md tr mg).mate =
        (Finset.range (gmN C md)).filter (gmElig C tr mg)) := by
  have hclo : C.ClosureOK → ∀ x ∈ Finset.range (gmN C md),
      gmElig C tr mg x → ∀ y ∈ C.bd x, C.val y ≤ C.val x := by
    intro hc x hxr _ y hy
    exact hc x (range_gmN_sub C md hxr) y hy
  refine ⟨Iff.rfl, ?_, ?_⟩
  · intro hc hviol
    obtain ⟨x, hxr, hxe, y, hy, hlt⟩ := hviol
    exact absurd (hclo hc x hxr hxe y hy) (by omega)
  · intro hc hdd
    have hyp : GMHyp C md tr mg := ⟨hclo hc, hdd⟩
    exact ⟨(gmFinal_inv C md tr mg hyp).1.hub,
      gmFinal_allProcessed C md tr mg hyp⟩

/-- For a cap `1 ≤ match_dim ≤ dimension`, cells of dimension strictly above
the cap are outside the matched range of `GenericMorseMatching`: they are
not listed as critical, and the public `mate` accessor has no entry for them
(the model returns the sentinel; in the C++ the access is out of bounds). -/
theorem gmAboveCap (C : GCx) (md : ℤ) (tr : Bool) (mg : ℤ)
    (h1 : 1 ≤ md) (h2 : md ≤ (C.dimension : ℤ)) (x : ℕ)
    (hdim : md < (C.cdim x : ℤ)) :
    x ∉ gmCriticals C md tr mg ∧ gmMate C md tr mg (x : ℤ) = -1 := by
  have hD : gmD C md = md.toNat := by
    rw [gmD, if_pos ⟨by omega, h2⟩]
  have hnot : x ∉ Finset.range (gmN C md) := by
    rw [gmN_block, hD]
    rintro ⟨-, hc⟩
    omega
  constructor
  · intro hc
    rw [gmCriticals, Finset.mem_filter] at hc
    exact hnot hc.1
  · rw [gmMate, if_neg]
    rintro ⟨-, hc⟩
    rw [Finset.mem_range] at hnot
    omega

/-- `match_dim = 0` is rejected by the guard `match_dim > 0` and silently
falls back to the full dimension: on the single-edge complex the edge (of
dimension `1 > 0`) is matched anyway. -/
theorem match_dim_zero_ignored :
    gmD edgeCx 0 = edgeCx.dimension ∧
      (gmFinal edgeCx 0 false 0).mate 2 = 1 := by decide

/-- Witness for the amended claim C7 on the single-edge complex: closure
holds, no violation is reported, and the loop completes cleanly. -/
theorem closure_error_iff_witness :
    ¬ gmViolation edgeCx (-1) false 0 ∧
      (gmFinal edgeCx (-1) false 0).ub = false :=
  ⟨(closure_error_iff edgeCx (-1) false 0).2.1 (by decide),
   ((closure_error_iff edgeCx (-1) false 0).2.2 (by decide) (by decide)).1⟩

/-!
## CubicalMorseMatching

Embedding of the recursive template matching `CubicalMorseMatching::mate_`
(CubicalMorseMatching.h, lines 118-146).  `CubicalComplex.h` is not in the
source tree; modelled from the spec (sections 4.C6 and 6): a cubical cell id
decomposes into a shape (bitmask over the axes, with popcount equal to the
cell dimension) and a position inside the type block of size
`type_size = size / #shapes`; `TS()` maps a shape to its type index, and
type indices are ordered by ascending dimension since cell ids are
partitioned by dimension. -/

theorem find?_congr_list (l : List ℕ) (p q : ℕ → Bool)
    (h : ∀ a ∈ l, p a = q a) : l.find? p = l.find? q := by
  induction l with
  | nil => rfl
  | cons b t ih =>
    by_cases hb : p b = true
    · rw [List.find?_cons_of_pos t hb,
        List.find?_cons_of_pos t (by rw [← h b (List.mem_cons_self b t)]; exact hb)]
    · rw [List.find?_cons_of_neg t hb,
        List.find?_cons_of_neg t (by rw [← h b (List.mem_cons_self b t)]; exact hb),
        ih (fun a ha => h a (List.mem_cons_of_mem b ha))]

/-- `find?` over `range m` returns the least satisfying index. -/
theorem findRange_some_elim (m d : ℕ) (p : ℕ → Bool)
    (h : (List.range m).find? p = some d) :
    d < m ∧ p d = true ∧ ∀ d' < d, p d' = false := by
  induction m with
  | zero => simp [List.range_zero] at h
  | succ m ih =>
    rw [List.range_succ, List.find?_append] at h
    cases h1 : (List.range m).find? p with
    | some d'' =>
      rw [h1] at h
      simp at h
      rcases ih (by rw [h1, h]) with ⟨ha, hb, hc⟩
      exact ⟨by omega, hb, hc⟩
    | none =>
      rw [h1] at h
      simp at h
      have hlow : ∀ d' < m, p d' = false := by
        intro d' hd'
        have := List.find?_eq_none.mp h1 d' (List.mem_range.mpr hd')
        simpa using this
      rcases h with ⟨hpm, hmd⟩
      subst hmd
      exact ⟨by omega, hpm, hlow⟩

/-- `find?` over `range m` finds the least satisfying index. -/
theorem findRange_some_intro (m d : ℕ) (p : ℕ → Bool) (hd : d < m)
    (hpd : p d = true) (hlow : ∀ d' < d, p d' = false) :
    (List.range m).find? p = some d := by
  induction m with
  | zero => omega
  | succ m ih =>
    rw [List.range_succ, List.find?_append]
    by_cases hdm : d < m
    · rw [ih hdm]
      rfl
    · have hdm' : d = m := by omega
      subst hdm'
      have hnone : (List.range d).find? p = none := by
        rw [List.find?_eq_none]
        intro x hx
        rw [List.mem_range] at hx
        simp [hlow x hx]
      rw [hnone, List.find?_cons_of_pos _ hpd]
      rfl

/-- Number of active axes of a shape among the first `D` bits (the popcount
defining the cell dimension). -/
def bitsOn (s D : ℕ) : ℕ := ((Finset.range D).filter (fun d => s.testBit d)).card

/-- Modelled from the spec: the cubical complex capability used by
`CubicalMorseMatching` — `cell_shape`, `cell_pos`, `rightfringe`, `TS()`,
`type_size()` and the grading, with the shape/type tables mutually inverse
and type indices ordered by dimension (popcount), since cell ids ascend with
dimension. -/
structure CubCx where
  /-- number of axes (`dimension()`) -/
  D : ℕ
  /-- `type_size()` -/
  ts : ℕ
  /-- the per-shape type-offset table `TS()` -/
  TS : ℕ → ℕ
  /-- the shape of a type index (inverse of `TS`) -/
  STS : ℕ → ℕ
  /-- `rightfringe` -/
  fringe : ℕ → Bool
  /-- the grading `GradedComplex::value` -/
  val : ℕ → ℤ
  hts : 0 < ts
  hTS_lt : ∀ s ∈ Finset.range (2 ^ D), TS s ∈ Finset.range (2 ^ D)
  hSTS_lt : ∀ t ∈ Finset.range (2 ^ D), STS t ∈ Finset.range (2 ^ D)
  hSTS_TS : ∀ s ∈ Finset.range (2 ^ D), STS (TS s) = s
  hTS_STS : ∀ t ∈ Finset.range (2 ^ D), TS (STS t) = t
  hTS_mono : ∀ s ∈ Finset.range (2 ^ D), ∀ u ∈ Finset.range (2 ^ D),
    bitsOn s D < bitsOn u D → TS s < TS u

namespace CubCx

/-- `size()` of the cubical complex: one type block per shape. -/
def size (X : CubCx) : ℕ := X.ts * 2 ^ X.D

/-- `cell_shape`. -/
def shape (X : CubCx) (c : ℕ) : ℕ := X.STS (c / X.ts)

/-- `cell_pos`. -/
def pos (X : CubCx) (c : ℕ) : ℕ := c % X.ts

/-- `cell_dim`: the popcount of the shape. -/
def cdim (X : CubCx) (c : ℕ) : ℕ := bitsOn (X.shape c) X.D

/-- The proposed mate across axis `d`:
`cell_pos(cell) + type_size_ * TS()[shape ^ bit]`
(CubicalMorseMatching.h, lines 131-132). -/
def propose (X : CubCx) (c d : ℕ) : ℕ :=
  X.pos c + X.ts * X.TS (X.shape c ^^^ (1 <<< d))

end CubCx

/-- `CubicalMorseMatching::mate_` (lines 118-146), with explicit fuel (the
recursion descends to a strictly smaller axis bound, so fuel `D` is exact):
a fringe cell is returned unchanged; otherwise the axes `d = 0 … D-1` are
scanned in order, skipping active axes in `initial` mode, and the first
proposed mate that is not fringe, has the same grade, and is itself
unmatched below axis `d` is returned; if no axis is accepted the cell is
critical. -/
def cmMateF (X : CubCx) : ℕ → ℕ → ℕ → Bool → ℕ
  | 0, cell, _, _ => cell
  | fuel + 1, cell, D, initial =>
    if X.fringe cell then cell
    else
      match (List.range D).find? (fun d =>
        (!(initial && (X.shape cell).testBit d)) &&
        (!X.fringe (X.propose cell d)) &&
        (X.val (X.propose cell d) == X.val cell) &&
        (cmMateF X fuel (X.propose cell d) d false == X.propose cell d)) with
      | some d => X.propose cell d
      | none => cell

/-- `CubicalMorseMatching::mate` (line 108): the full-resolution scan. -/
def cmMate (X : CubCx) (cell : ℕ) : ℕ := cmMateF X X.D cell X.D false

/-- `CubicalMorseMatching::priority` (line 111):
`type_size_ - x % type_size_`. -/
def cmPriorityF (X : CubCx) (x : ℕ) : ℤ := (X.ts : ℤ) - ((x % X.ts : ℕ) : ℤ)

/-- A fringe cell is its own `mate_` at any fuel. -/
theorem cmMateF_fringe (X : CubCx) (fuel cell D : ℕ) (init : Bool)
    (h : X.fringe cell = true) : cmMateF X fuel cell D init = cell := by
  cases fuel with
  | zero => rfl
  | succ fuel => rw [cmMateF, if_pos h]

/-- The fuel argument is irrelevant once it covers the axis bound, since the
recursion strictly descends in the axis bound. -/
theorem cmMateF_fuel (X : CubCx) : ∀ f1 : ℕ, ∀ f2 cell D : ℕ, ∀ init : Bool,
    D ≤ f1 → D ≤ f2 → cmMateF X f1 cell D init = cmMateF X f2 cell D init := by
  intro f1
  induction f1 with
  | zero =>
    intro f2 cell D init h1 h2
    have hD : D = 0 := by omega
    subst hD
    cases f2 with
    | zero => rfl
    | succ f2 =>
      rw [cmMateF, cmMateF]
      simp [List.range_zero]
  | succ f1 ih =>
    intro f2 cell D init h1 h2
    cases f2 with
    | zero =>
      have hD : D = 0 := by omega
      subst hD
      rw [cmMateF, cmMateF]
      simp [List.range_zero]
    | succ f2 =>
      rw [cmMateF, cmMateF]
      have hpred : ∀ d ∈ List.range D,
          ((!(init && (X.shape cell).testBit d)) &&
            (!X.fringe (X.propose cell d)) &&
            (X.val (X.propose cell d) == X.val cell) &&
            (cmMateF X f1 (X.propose cell d) d false == X.propose cell d)) =
          ((!(init && (X.shape cell).testBit d)) &&
            (!X.fringe (X.propose cell d)) &&
            (X.val (X.propose cell d) == X.val cell) &&
            (cmMateF X f2 (X.propose cell d) d false == X.propose cell d)) := by
        intro d hd
        rw [List.mem_range] at hd
        rw [ih f2 (X.propose cell d) d false (by omega) (by omega)]
      rw [find?_congr_list _ _ _ hpred]

/-- The acceptance test of the non-initial scan at axis `d`, with the exact
fuel `d` for the recursive unmatched-below-`d` check. -/
def cmAccept (X : CubCx) (cell d : ℕ) : Bool :=
  (!X.fringe (X.propose cell d)) && (X.val (X.propose cell d) == X.val cell) &&
    (cmMateF X d (X.propose cell d) d false == X.propose cell d)

/-- Characterization of a non-initial `mate_` call on a non-fringe cell with
adequate fuel: the first accepted axis wins. -/
theorem cmMateF_eq (X : CubCx) (fuel cell D : ℕ) (hf : D ≤ fuel)
    (hnf : X.fringe cell = false) :
    cmMateF X fuel cell D false =
      (match (List.range D).find? (cmAccept X cell) with
        | some d => X.propose cell d
        | none => cell) := by
  cases fuel with
  | zero =>
    have hD : D = 0 := by omega
    subst hD
    simp [cmMateF, List.range_zero]
  | succ fuel =>
    rw [cmMateF, if_neg (by simp [hnf])]
    have hpred : ∀ d ∈ List.range D,
        ((!(false && (X.shape cell).testBit d)) &&
          (!X.fringe (X.propose cell d)) &&
          (X.val (X.propose cell d) == X.val cell) &&
          (cmMateF X fuel (X.propose cell d) d false == X.propose cell d)) =
        cmAccept X cell d := by
      intro d hd
      rw [List.mem_range] at hd
      rw [cmAccept, cmMateF_fuel X fuel d (X.propose cell d) d false
        (by omega) le_rfl]
      simp [Bool.and_assoc]
    rw [find?_congr_list _ _ _ hpred]

/-- The shape of a valid cell id is a valid shape. -/
theorem shape_mem (X : CubCx) (c : ℕ) (hc : c < X.size) :
    X.shape c ∈ Finset.range (2 ^ X.D) := by
  apply X.hSTS_lt
  rw [Finset.mem_range]
  rw [CubCx.size] at hc
  exact (Nat.div_lt_iff_lt_mul X.hts).mpr (by rw [Nat.mul_comm]; exact hc)

/-- The flipped shape used by `propose` is a valid shape. -/
theorem flip_mem (X : CubCx) (c d : ℕ) (hc : c < X.size) (hd : d < X.D) :
    X.shape c ^^^ (1 <<< d) ∈ Finset.range (2 ^ X.D) := by
  rw [Finset.mem_range]
  have h1 := Finset.mem_range.mp (shape_mem X c hc)
  have h2 : 1 <<< d < 2 ^ X.D := by
    rw [Nat.shiftLeft_eq, one_mul]
    exact Nat.pow_lt_pow_right (by omega) hd
  exact Nat.xor_lt_two_pow h1 h2

/-- Position and shape of the proposed mate: same position, shape with axis
`d` flipped. -/
theorem propose_decomp (X : CubCx) (c d : ℕ) (hc : c < X.size) (hd : d < X.D) :
    X.pos (X.propose c d) = X.pos c ∧
      X.shape (X.propose c d) = X.shape c ^^^ (1 <<< d) := by
  have hp : X.pos c < X.ts := Nat.mod_lt c X.hts
  constructor
  · rw [CubCx.propose, CubCx.pos, Nat.add_mul_mod_self_left, Nat.mod_eq_of_lt hp]
  · rw [CubCx.propose, CubCx.shape, Nat.add_mul_div_left _ _ X.hts,
      Nat.div_eq_of_lt hp, Nat.zero_add]
    exact X.hSTS_TS _ (flip_mem X c d hc hd)

/-- The proposed mate is a valid cell id. -/
theorem propose_lt_size (X : CubCx) (c d : ℕ) (hc : c < X.size) (hd : d < X.D) :
    X.propose c d < X.size := by
  have hp : X.pos c < X.ts := Nat.mod_lt c X.hts
  have hT := Finset.mem_range.mp (X.hTS_lt _ (flip_mem X c d hc hd))
  rw [CubCx.propose, CubCx.size]
  calc X.pos c + X.ts * X.TS (X.shape c ^^^ (1 <<< d))
      < X.ts + X.ts * X.TS (X.shape c ^^^ (1 <<< d)) := by omega
    _ = X.ts * (X.TS (X.shape c ^^^ (1 <<< d)) + 1) := by ring
    _ ≤ X.ts * 2 ^ X.D := Nat.mul_le_mul_left _ (by omega)

/-- A cell id is recovered from its position and shape. -/
theorem cell_eq_pos_shape (X : CubCx) (c : ℕ) (hc : c < X.size) :
    c = X.pos c + X.ts * X.TS (X.shape c) := by
  rw [CubCx.pos, CubCx.shape, X.hTS_STS _ (by
    rw [Finset.mem_range]
    rw [CubCx.size] at hc
    exact (Nat.div_lt_iff_lt_mul X.hts).mpr (by rw [Nat.mul_comm]; exact hc))]
  exact (Nat.mod_add_div c X.ts).symm

/-- Proposing across the same axis twice returns to the original cell. -/
theorem propose_propose (X : CubCx) (c d : ℕ) (hc : c < X.size)
    (hd : d < X.D) : X.propose (X.propose c d) d = c := by
  rcases propose_decomp X c d hc hd with ⟨hpos, hshape⟩
  rw [CubCx.propose, hpos, hshape, Nat.xor_assoc, Nat.xor_self, Nat.xor_zero]
  exact (cell_eq_pos_shape X c hc).symm

/-- The proposed mate differs from the cell itself. -/
theorem propose_ne (X : CubCx) (c d : ℕ) (hc : c < X.size) (hd : d < X.D) :
    X.propose c d ≠ c := by
  intro h
  have hshape := (propose_decomp X c d hc hd).2
  rw [h] at hshape
  have hb : (1 <<< d) = 0 := by
    have h2 := congrArg (fun t => t ^^^ X.shape c) hshape
    simp only [Nat.xor_comm (X.shape c) _, Nat.xor_assoc, Nat.xor_self,
      Nat.xor_zero] at h2
    simpa using h2.symm
  rw [Nat.shiftLeft_eq, one_mul] at hb
  exact absurd hb (Nat.pos_pow_of_pos d (by omega)).ne'

/-- Effect of flipping axis `d` on the dimension (popcount). -/
theorem bitsOn_xor (s d D : ℕ) (hd : d < D) :
    bitsOn (s ^^^ (1 <<< d)) D =
      if s.testBit d then bitsOn s D - 1 else bitsOn s D + 1 := by
  have hset : (Finset.range D).filter (fun i => (s ^^^ (1 <<< d)).testBit i) =
      if s.testBit d then ((Finset.range D).filter (fun i => s.testBit i)).erase d
      else insert d ((Finset.range D).filter (fun i => s.testBit i)) := by
    have hb : (1 <<< d) = 2 ^ d := by rw [Nat.shiftLeft_eq, one_mul]
    by_cases hsd : s.testBit d
    · rw [if_pos hsd]
      ext i
      simp only [Finset.mem_filter, Finset.mem_erase, Finset.mem_range,
        Nat.testBit_xor, hb, Nat.testBit_two_pow]
      by_cases hid : i = d
      · subst hid
        simp [hsd]
      · simp [hid, Ne.symm hid]
    · rw [if_neg hsd]
      ext i
      simp only [Finset.mem_filter, Finset.mem_insert, Finset.mem_range,
        Nat.testBit_xor, hb, Nat.testBit_two_pow]
      by_cases hid : i = d
      · subst hid
        simp [hsd, hd]
      · simp [hid, Ne.symm hid]
  rw [bitsOn, hset]
  by_cases hsd : s.testBit d
  · rw [if_pos hsd, if_pos hsd, Finset.card_erase_of_mem (by
      simp [Finset.mem_filter, Finset.mem_range, hd, hsd])]
    rfl
  · rw [if_neg hsd, if_neg hsd, Finset.card_insert_of_not_mem (by
      simp [Finset.mem_filter, hsd])]
    rfl

/-- Symmetry of the first accepted axis: if the non-initial scan of `cell`
accepts axis `d` first, then the non-initial scan of the proposed mate also
accepts axis `d` first. -/
theorem cmAccept_swap (X : CubCx) (cell d : ℕ) (hc : cell < X.size)
    (hnf : X.fringe cell = false)
    (hfind : (List.range X.D).find? (cmAccept X cell) = some d) :
    (List.range X.D).find? (cmAccept X (X.propose cell d)) = some d := by
  rcases findRange_some_elim _ _ _ hfind with ⟨hd, hacc, hlow⟩
  have hw : X.fringe (X.propose cell d) = false ∧
      X.val (X.propose cell d) = X.val cell ∧
      cmMateF X d (X.propose cell d) d false = X.propose cell d := by
    have h1 := hacc
    rw [cmAccept] at h1
    simp only [Bool.and_eq_true, Bool.not_eq_true', beq_iff_eq] at h1
    exact ⟨h1.1.1, h1.1.2, h1.2⟩
  rcases hw with ⟨hwfr, hwval, hwm⟩
  apply findRange_some_intro _ _ _ hd
  · rw [cmAccept]
    simp only [Bool.and_eq_true, Bool.not_eq_true', beq_iff_eq]
    rw [propose_propose X cell d hc hd]
    refine ⟨⟨hnf, hwval.symm⟩, ?_⟩
    rw [cmMateF_eq X d cell d le_rfl hnf]
    have hnone : (List.range d).find? (cmAccept X cell) = none := by
      rw [List.find?_eq_none]
      intro d' hd'
      rw [List.mem_range] at hd'
      simp [hlow d' hd']
    rw [hnone]
  · intro d' hd'
    rw [cmMateF_eq X d (X.propose cell d) d le_rfl hwfr] at hwm
    cases hfw : (List.range d).find? (cmAccept X (X.propose cell d)) with
    | some d'' =>
      rw [hfw] at hwm
      rcases findRange_some_elim _ _ _ hfw with ⟨hd'', _, _⟩
      exact absurd hwm (propose_ne X (X.propose cell d) d''
        (propose_lt_size X cell d hc hd) (by omega))
    | none =>
      have := List.find?_eq_none.mp hfw d' (List.mem_range.mpr hd')
      simpa using this

/-- `mate` of a non-fringe cell, written through the acceptance scan. -/
theorem cmMate_scan (X : CubCx) (cell : ℕ) (hnf : X.fringe cell = false) :
    cmMate X cell =
      (match (List.range X.D).find? (cmAccept X cell) with
        | some d => X.propose cell d
        | none => cell) := by
  rw [cmMate, cmMateF_eq X X.D cell X.D le_rfl hnf]

/-- The cubical template matching is an involution on every cell of the
complex: applying `mate` twice returns the original cell. -/
theorem cmMate_involution (X : CubCx) (cell : ℕ) (hc : cell < X.size) :
    cmMate X (cmMate X cell) = cell := by
  by_cases hfr : X.fringe cell = true
  · have h1 : cmMate X cell = cell := cmMateF_fringe X X.D cell X.D false hfr
    rw [h1, h1]
  · have hnf : X.fringe cell = false := by
      cases h : X.fringe cell
      · rfl
      · exact absurd h hfr
    rw [cmMate_scan X cell hnf]
    cases hfind : (List.range X.D).find? (cmAccept X cell) with
    | none =>
      simp only
      rw [cmMate_scan X cell hnf, hfind]
    | some d =>
      simp only
      rcases findRange_some_elim _ _ _ hfind with ⟨hd, hacc, _⟩
      have hwfr : X.fringe (X.propose cell d) = false := by
        rw [cmAccept] at hacc
        simp only [Bool.and_eq_true, Bool.not_eq_true'] at hacc
        exact hacc.1.1
      rw [cmMate_scan X (X.propose cell d) hwfr,
        cmAccept_swap X cell d hc hnf hfind]
      exact propose_propose X cell d hc hd

/-- A matched cubical pair: `mate` is inverse on it, and the cell with the
smaller id is the one of the smaller dimension, with dimensions differing by
exactly one. -/
theorem cmMate_pair (X : CubCx) (cell : ℕ) (hc : cell < X.size)
    (h : cmMate X cell ≠ cell) :
    cmMate X (cmMate X cell) = cell ∧
      (cell < cmMate X cell ↔ X.cdim (cmMate X cell) = X.cdim cell + 1) ∧
      (cmMate X cell < cell ↔ X.cdim cell = X.cdim (cmMate X cell) + 1) := by
  have hnf : X.fringe cell = false := by
    cases hfr : X.fringe cell
    · rfl
    · exact absurd (cmMateF_fringe X X.D cell X.D false hfr) h
  refine ⟨cmMate_involution X cell hc, ?_⟩
  cases hfind : (List.range X.D).find? (cmAccept X cell) with
  | none =>
    have hmate : cmMate X cell = cell := by
      rw [cmMate_scan X cell hnf, hfind]
    exact absurd hmate h
  | some d =>
    have hmate : cmMate X cell = X.propose cell d := by
      rw [cmMate_scan X cell hnf, hfind]
    rw [hmate]
    rcases findRange_some_elim _ _ _ hfind with ⟨hd, _, _⟩
    have hshape := (propose_decomp X cell d hc hd).2
    have hdim : X.cdim (X.propose cell d) =
        if (X.shape cell).testBit d then X.cdim cell - 1 else X.cdim cell + 1 := by
      rw [CubCx.cdim, hshape, bitsOn_xor _ _ _ hd]
      rfl
    have hsmem := shape_mem X cell hc
    have hfmem := flip_mem X cell d hc hd
    have hcell := cell_eq_pos_shape X cell hc
    have hprop : X.propose cell d =
        X.pos cell + X.ts * X.TS (X.shape cell ^^^ (1 <<< d)) := rfl
    by_cases hbit : (X.shape cell).testBit d
    · have hpos : 0 < X.cdim cell := by
        rw [CubCx.cdim, bitsOn]
        apply Finset.card_pos.mpr
        exact ⟨d, Finset.mem_filter.mpr ⟨Finset.mem_range.mpr hd, hbit⟩⟩
      have hdim' : X.cdim cell = X.cdim (X.propose cell d) + 1 := by
        rw [hdim, if_pos hbit]
        omega
      have hlt : X.propose cell d < cell := by
        have hbx : bitsOn (X.shape cell ^^^ (1 <<< d)) X.D =
            bitsOn (X.shape cell) X.D - 1 := by
          rw [bitsOn_xor _ _ _ hd, if_pos hbit]
        have hb0 : 0 < bitsOn (X.shape cell) X.D := by
          rw [CubCx.cdim] at hpos
          exact hpos
        have hmono := X.hTS_mono _ hfmem _ hsmem (by omega)
        calc X.propose cell d = X.pos cell + X.ts * X.TS (X.shape cell ^^^ (1 <<< d)) := hprop
          _ < X.pos cell + X.ts * X.TS (X.shape cell) := by
              have := mul_lt_mul_of_pos_left hmono X.hts
              omega
          _ = cell := hcell.symm
      constructor
      · constructor
        · intro hlt'
          omega
        · intro heq
          omega
      · constructor
        · intro _
          exact hdim'
        · intro _
          exact hlt
    · have hdim' : X.cdim (X.propose cell d) = X.cdim cell + 1 := by
        rw [hdim, if_neg hbit]
      have hlt : cell < X.propose cell d := by
        have hbx : bitsOn (X.shape cell ^^^ (1 <<< d)) X.D =
            bitsOn (X.shape cell) X.D + 1 := by
          rw [bitsOn_xor _ _ _ hd, if_neg hbit]
        have hmono := X.hTS_mono _ hsmem _ hfmem (by omega)
        calc cell = X.pos cell + X.ts * X.TS (X.shape cell) := hcell
          _ < X.pos cell + X.ts * X.TS (X.shape cell ^^^ (1 <<< d)) := by
              have := mul_lt_mul_of_pos_left hmono X.hts
              omega
          _ = X.propose cell d := hprop.symm
      constructor
      · constructor
        · intro _
          exact hdim'
        · intro _
          exact hlt
      · constructor
        · intro hlt'
          omega
        · intro heq
          omega

/-- A concrete cubical complex: the unit square with one top cell, `D = 2`,
`type_size = 4` (positions `(x, y) ∈ {0,1}²`), shapes ordered by popcount
(identity type table), and rightfringe exactly at the nonzero positions. -/
def squareX : CubCx where
  D := 2
  ts := 4
  TS := fun s => s
  STS := fun t => t
  fringe := fun c => decide (c % 4 ≠ 0)
  val := fun _ => 0
  hts := by decide
  hTS_lt := by decide
  hSTS_lt := by decide
  hSTS_TS := by decide
  hTS_STS := by decide
  hTS_mono := by decide

/-- Amended claim C4.  The mate maps of both backends are involutions on
their scan domains, with the mate of a matched cell of adjacent dimension:
for `GenericMorseMatching` (under the grading closure on scanned cells and
`∂∂ = 0`) on every eligible cell of the matched range, and for
`CubicalMorseMatching` on every cell of the cubical complex.  Truncated
cells of the generic backend are excluded: they keep the sentinel mate `-1`
and break the involution (see the counterexample). -/
theorem mate_involution_amended :
    (∀ (C : GCx) (md : ℤ) (tr : Bool) (mg : ℤ), GMHyp C md tr mg →
      ∀ x : ℤ, 0 ≤ x → x < (gmN C md : ℤ) → gmElig C tr mg x.toNat →
        gmMate C md tr mg (gmMate C md tr mg x) = x) ∧
    (∀ (X : CubCx) (cell : ℕ), cell < X.size →
      cmMate X (cmMate X cell) = cell ∧
      (cmMate X cell ≠ cell →
        X.cdim (cmMate X cell) = X.cdim cell + 1 ∨
        X.cdim cell = X.cdim (cmMate X cell) + 1)) := by
  constructor
  · exact gmMate_involution
  · intro X cell hc
    refine ⟨cmMate_involution X cell hc, ?_⟩
    intro hne
    rcases cmMate_pair X cell hc hne with ⟨-, hq, hk⟩
    rcases Nat.lt_trichotomy cell (cmMate X cell) with hlt | heq | hgt
    · exact Or.inl (hq.mp hlt)
    · exact absurd heq.symm hne
    · exact Or.inr (hk.mp hgt)

/-- Witness for the amended claim C4: the generic matching on the
single-edge complex and the cubical matching on the square, at concrete
cells. -/
theorem mate_involution_amended_witness :
    gmMate edgeCx (-1) false 0 (gmMate edgeCx (-1) false 0 1) = 1 ∧
      cmMate squareX (cmMate squareX 12) = 12 :=
  ⟨mate_involution_amended.1 edgeCx (-1) false 0 ⟨by decide, by decide⟩ 1
      (by decide) (by decide) (by decide),
   (mate_involution_amended.2 squareX 12 (by decide)).1⟩

/-- Amended claim C9.  In both backends each matched pair satisfies
`queen < king` as integer cell ids, with the king one dimension higher, so
`MorseComplex`'s predicates `isQueen(x) := x < mate(x)` and
`isKing(x) := x > mate(x)` classify exactly the queens and kings — for
`GenericMorseMatching` on the eligible cells of the matched range (under the
grading closure on scanned cells and `∂∂ = 0`), and for
`CubicalMorseMatching` on all cells.  On truncated cells the sentinel mate
`-1` makes `isKing` fire spuriously (see the counterexample). -/
theorem queen_king_classification_amended :
    (∀ (C : GCx) (md : ℤ) (tr : Bool) (mg : ℤ), GMHyp C md tr mg →
      ∀ x ∈ Finset.range (gmN C md), gmElig C tr mg x →
        (((x : ℤ) < (gmFinal C md tr mg).mate x ↔ gmIsQueenOf C md tr mg x) ∧
         ((gmFinal C md tr mg).mate x < (x : ℤ) ↔ gmIsKingOf C md tr mg x))) ∧
    (∀ (X : CubCx) (cell : ℕ), cell < X.size → cmMate X cell ≠ cell →
      ((cell < cmMate X cell ↔ X.cdim (cmMate X cell) = X.cdim cell + 1) ∧
       (cmMate X cell < cell ↔ X.cdim cell = X.cdim (cmMate X cell) + 1))) := by
  constructor
  · intro C md tr mg hyp x hxr hxe
    exact gmClassification C md tr mg hyp x hxr hxe
  · intro X cell hc hne
    exact (cmMate_pair X cell hc hne).2

/-- Witness for the amended claim C9: on the single-edge complex the vertex
`1` is the queen of the pair `(1, 2)`, and on the cubical square the matched
edge `8` is below its king, the square `12` of one higher dimension. -/
theorem queen_king_classification_amended_witness :
    ((1 : ℤ) < (gmFinal edgeCx (-1) false 0).mate 1 ↔
      gmIsQueenOf edgeCx (-1) false 0 1) ∧
    (8 < cmMate squareX 8 ↔ squareX.cdim (cmMate squareX 8) = squareX.cdim 8 + 1) :=
  ⟨(queen_king_classification_amended.1 edgeCx (-1) false 0
      ⟨by decide, by decide⟩ 1 (by decide) (by decide)).1,
   (queen_king_classification_amended.2 squareX 8 (by decide) (by decide)).1⟩

/-- Claim C5 (code bug).  The `match_dim` option is not recognized by the
cubical backend: `CubicalMorseMatching` has no `match_dim` parameter at all
(CubicalMorseMatching.h, lines 23-35), so on the unit square its scan
matches the top cell `12` of dimension `2` — under any cap `match_dim ∈
{0, 1}` the claim requires that cell to stay unmatched.  The generic
backend rejects the valid cap `match_dim = 0` through the guard
`match_dim > 0` (GenericMorseMatching.h, line 53) and silently matches the
full complex: on the single-edge complex the edge of dimension `1 > 0` is
matched anyway. -/
theorem match_dim_backends_bug :
    (cmMate squareX 12 = 8 ∧ squareX.cdim 12 = 2) ∧
      (gmD edgeCx 0 = edgeCx.dimension ∧
        (gmFinal edgeCx 0 false 0).mate 2 = 1) := by decide

/-- Claim C6 (code bug).  `Homology(base, match_dim)` calls
`MorseComplex(base, match_dim)` (Homology.h, line 23), which resolves to
the delegating constructor `MorseComplex(base, bool verbose)`
(MorseComplex.h, lines 56-59): `match_dim` is consumed as the verbose flag
and no round is capped.  On the solid triangle the uncapped matching the
code computes reduces to the single critical cell `{0}`, while a round
capped at `match_dim = 1`, as the claim describes, leaves the two critical
cells `{0, 5}`. -/
theorem homology_round_uncapped :
    gmCriticals triCx (-1) false 0 = {0} ∧
      gmCriticals triCx 1 false 0 = {0, 5} := by decide

/-!
## ConnectionMatrix

The do-while loop of `ConnectionMatrix` (ConnectionMatrix.h, lines 25-30):
`do { base = next; next = MorseGradedComplex(base, ...); } while
(next->complex()->size() != base->complex()->size()); return base;` —
abstracted over the round function and its size, with explicit fuel. -/

/-- One round of the `ConnectionMatrix` loop: replace the current complex by
the reduction `R` of it while the size changes. -/
def cmLoop {α : Type} (R : α → α) (size : α → ℕ) : ℕ → α → α
  | 0, G => G
  | fuel + 1, G => if size (R G) ≠ size G then cmLoop R size fuel (R G) else G

/-- `ConnectionMatrix`: the loop with the fuel that suffices when round
sizes never increase. -/
def cmFix {α : Type} (R : α → α) (size : α → ℕ) (G : α) : α :=
  cmLoop R size (size G + 1) G

/-- The loop reaches a size fixed point whenever round sizes never increase:
strictly decreasing sizes exhaust the fuel `size G + 1` only after the size
repeats. -/
theorem cmLoop_fix {α : Type} (R : α → α) (size : α → ℕ)
    (hR : ∀ G, size (R G) ≤ size G) :
    ∀ fuel : ℕ, ∀ G : α, size G < fuel →
      size (R (cmLoop R size fuel G)) = size (cmLoop R size fuel G) := by
  intro fuel
  induction fuel with
  | zero =>
    intro G h
    omega
  | succ fuel ih =>
    intro G h
    rw [cmLoop]
    by_cases hne : size (R G) ≠ size G
    · rw [if_pos hne]
      refine ih (R G) ?_
      have := hR G
      omega
    · rw [if_neg hne]
      push_neg at hne
      exact hne

/-- The criticals of one generic round never outnumber the cells of the
current complex: the round size is non-increasing. -/
theorem gmCriticals_card_le (C : GCx) (md : ℤ) (tr : Bool) (mg : ℤ) :
    (gmCriticals C md tr mg).card ≤ C.n := by
  calc (gmCriticals C md tr mg).card
      ≤ (Finset.range (gmN C md)).card := Finset.card_filter_le _ _
    _ = gmN C md := Finset.card_range _
    _ ≤ (Finset.range C.n).card := by
        rw [gmN]
        exact Finset.card_filter_le _ _
    _ = C.n := Finset.card_range _

/-- Claim C8.  The `ConnectionMatrix` loop terminates after finitely many
rounds whenever the round sizes are non-increasing (fuel `size + 1`
suffices), and the complex it returns is a size fixed point of one further
reduction — its size equals that of the last intermediate complex produced.
Round sizes are indeed non-increasing: the number of critical cells a
generic round leaves never exceeds the size of the current complex. -/
theorem connection_matrix_fixed_point :
    (∀ (α : Type) (R : α → α) (size : α → ℕ),
      (∀ G, size (R G) ≤ size G) →
      ∀ G, size (R (cmFix R size G)) = size (cmFix R size G)) ∧
    (∀ (C : GCx) (md : ℤ) (tr : Bool) (mg : ℤ),
      (gmCriticals C md tr mg).card ≤ C.n) := by
  constructor
  · intro α R size hR G
    exact cmLoop_fix R size hR (size G + 1) G (by omega)
  · exact gmCriticals_card_le

/-- Witness for claim C8: the loop on the shrinking round `Nat.pred` from
`3` reaches a size fixed point, and on the single-edge complex the round
size bound holds. -/
theorem connection_matrix_fixed_point_witness :
    id (Nat.pred (cmFix Nat.pred id 3)) = id (cmFix Nat.pred id 3) ∧
      (gmCriticals edgeCx (-1) false 0).card ≤ edgeCx.n :=
  ⟨connection_matrix_fixed_point.1 ℕ Nat.pred id (fun G => Nat.pred_le G) 3,
   connection_matrix_fixed_point.2 edgeCx (-1) false 0⟩

/-!
## Termination of the flow (claim C3)

The extraction of `std::priority_queue::top()` always removes an entry of
maximal priority; the analysis below tracks, as a lexicographic measure,
the number of distinct priorities not above the queue maximum, the number
of "live" cells (still in `canonical`) holding the maximum, and the queue
length. -/

/-- The binary step of the argmax fold of `popMax`. -/
def pickMax (pr : ℤ → ℤ) (v y : ℕ) : ℕ :=
  if pr (v : ℤ) < pr (y : ℤ) then y else v

/-- The argmax fold returns an element of the list (or the seed) dominating
the seed and every element. -/
theorem foldl_pickMax (pr : ℤ → ℤ) :
    ∀ (l : List ℕ) (b : ℕ),
      (l.foldl (pickMax pr) b = b ∨ l.foldl (pickMax pr) b ∈ l) ∧
      pr (b : ℤ) ≤ pr ((l.foldl (pickMax pr) b : ℕ) : ℤ) ∧
      ∀ y ∈ l, pr (y : ℤ) ≤ pr ((l.foldl (pickMax pr) b : ℕ) : ℤ) := by
  intro l
  induction l with
  | nil =>
    intro b
    exact ⟨Or.inl rfl, le_refl _, by intro y hy; cases hy⟩
  | cons a t ih =>
    intro b
    have hfold : (a :: t).foldl (pickMax pr) b =
        t.foldl (pickMax pr) (pickMax pr b a) := rfl
    rcases ih (pickMax pr b a) with ⟨h1, h2, h3⟩
    have hba : pr (b : ℤ) ≤ pr ((pickMax pr b a : ℕ) : ℤ) ∧
        pr (a : ℤ) ≤ pr ((pickMax pr b a : ℕ) : ℤ) := by
      rw [pickMax]
      by_cases h : pr (b : ℤ) < pr (a : ℤ)
      · rw [if_pos h]
        exact ⟨le_of_lt h, le_refl _⟩
      · rw [if_neg h]
        exact ⟨le_refl _, by omega⟩
    refine ⟨?_, ?_, ?_⟩
    · rw [hfold]
      rcases h1 with he | hm
      · rw [he, pickMax]
        by_cases h : pr (b : ℤ) < pr (a : ℤ)
        · rw [if_pos h]
          exact Or.inr (List.mem_cons_self a t)
        · rw [if_neg h]
          exact Or.inl rfl
      · exact Or.inr (List.mem_cons_of_mem a hm)
    · rw [hfold]
      exact le_trans hba.1 h2
    · intro y hy
      rw [hfold]
      rcases List.mem_cons.mp hy with rfl | hyt
      · exact le_trans hba.2 h2
      · exact h3 y hyt

/-- `popMax` extracts an entry of maximal priority and erases one copy of
it. -/
theorem popMax_spec (pr : ℤ → ℤ) (x : ℕ) (xs : List ℕ) (q : ℕ)
    (rest : List ℕ) (h : popMax pr (x :: xs) = some (q, rest)) :
    q ∈ x :: xs ∧ rest = (x :: xs).erase q ∧
      ∀ y ∈ x :: xs, pr (y : ℤ) ≤ pr (q : ℤ) := by
  have hlam : (fun (b y : ℕ) => if pr (b : ℤ) < pr (y : ℤ) then y else b) =
      pickMax pr := rfl
  rw [popMax] at h
  simp only [hlam] at h
  rcases Option.some.inj h with h'
  have hq : q = (x :: xs).foldl (pickMax pr) x := congrArg Prod.fst h'.symm
  have hr : rest = (x :: xs).erase q := by
    have := congrArg Prod.snd h'.symm
    rw [hq]
    exact this
  rcases foldl_pickMax pr (x :: xs) x with ⟨h1, _, h3⟩
  refine ⟨?_, hr, ?_⟩
  · rw [hq]
    rcases h1 with he | hm
    · rw [he]
      exact List.mem_cons_self x xs
    · exact hm
  · intro y hy
    rw [hq]
    exact h3 y hy

/-- The priorities available to queue entries drawn from the cell range. -/
def flowPrSet (pr : ℤ → ℤ) (n : ℕ) : Finset ℤ :=
  (Finset.range n).image (fun (y : ℕ) => pr (y : ℤ))

/-- First measure component: the number of available priorities not above
the queue maximum. -/
def flowO (pr : ℤ → ℤ) (n : ℕ) (l : List ℕ) : ℕ :=
  ((flowPrSet pr n).filter (fun p => ∃ y ∈ l, p ≤ pr (y : ℤ))).card

/-- Second measure component: the number of live cells (still in
`canonical`) holding the queue maximum. -/
def flowL (pr : ℤ → ℤ) (l : List ℕ) (can : Finset ℕ) : ℕ :=
  (can.filter (fun y => y ∈ l ∧ ∀ z ∈ l, pr (z : ℤ) ≤ pr (y : ℤ))).card

/-- The flow loop terminates from every state whose queue holds queens of
the cell range, provided every queen lies in the boundary of its king and
all other queens in that boundary have strictly lower priority: the
lexicographic measure (available priorities at most the maximum, live cells
at the maximum, queue length) decreases at every step. -/
theorem flowLoop_total (bd : ℕ → Finset ℕ) (mate pr : ℤ → ℤ) (n : ℕ)
    (hbd : ∀ x, x < n → ∀ y ∈ bd x, y < n)
    (hking : ∀ q : ℕ, q < n → (q : ℤ) < mate (q : ℤ) →
      (mate (q : ℤ)).toNat < n ∧ q ∈ bd ((mate (q : ℤ)).toNat))
    (hdesc : ∀ q : ℕ, q < n → (q : ℤ) < mate (q : ℤ) →
      ∀ y ∈ bd ((mate (q : ℤ)).toNat), y ≠ q → (y : ℤ) < mate (y : ℤ) →
        pr (y : ℤ) < pr (q : ℤ)) :
    ∀ O L len : ℕ, ∀ queue : List ℕ, ∀ can gam : Finset ℕ,
      (∀ y ∈ queue, y < n ∧ (y : ℤ) < mate (y : ℤ)) →
      flowO pr n queue = O → flowL pr queue can = L → queue.length = len →
      ∃ fuel r, flowLoop bd mate pr fuel queue can gam = some r := by
  intro O
  induction O using Nat.strong_induction_on with
  | _ O ihO =>
  intro L
  induction L using Nat.strong_induction_on with
  | _ L ihL =>
  intro len
  induction len using Nat.strong_induction_on with
  | _ len ihlen =>
  intro queue can gam hQ hO hL hlen
  cases queue with
  | nil => exact ⟨0, (can, gam), rfl⟩
  | cons x xs =>
  obtain ⟨q, rest, hpop⟩ : ∃ q rest, popMax pr (x :: xs) = some (q, rest) := by
    rw [popMax]
    exact ⟨_, _, rfl⟩
  obtain ⟨hq_mem, hrest, hdom⟩ := popMax_spec pr x xs q rest hpop
  obtain ⟨hqn, hqueen⟩ := hQ q hq_mem
  have hrest_mem : ∀ y ∈ rest, y ∈ x :: xs := by
    rw [hrest]
    intro y hy
    exact List.mem_of_mem_erase hy
  by_cases hlive : q ∈ can
  · -- live extraction: the king is processed, the queen leaves canonical
    obtain ⟨hkn, hqbd⟩ := hking q hqn hqueen
    have hqs_mem : ∀ y : ℕ, y ∈ queensOf mate (bd ((mate (q : ℤ)).toNat)) ↔
        y ∈ bd ((mate (q : ℤ)).toNat) ∧ (y : ℤ) < mate (y : ℤ) := by
      intro y
      rw [queensOf, mem_listOf, Finset.mem_filter]
    have hq_qs : q ∈ queensOf mate (bd ((mate (q : ℤ)).toNat)) :=
      (hqs_mem q).mpr ⟨hqbd, hqueen⟩
    have hqs_le : ∀ y ∈ queensOf mate (bd ((mate (q : ℤ)).toNat)),
        pr (y : ℤ) ≤ pr (q : ℤ) := by
      intro y hy
      obtain ⟨hybd, hyq⟩ := (hqs_mem y).mp hy
      by_cases hyeq : y = q
      · rw [hyeq]
      · exact le_of_lt (hdesc q hqn hqueen y hybd hyeq hyq)
    have hQ' : ∀ y ∈ rest ++ queensOf mate (bd ((mate (q : ℤ)).toNat)),
        y < n ∧ (y : ℤ) < mate (y : ℤ) := by
      intro y hy
      rcases List.mem_append.mp hy with h1 | h2
      · exact hQ y (hrest_mem y h1)
      · obtain ⟨hybd, hyq⟩ := (hqs_mem y).mp h2
        exact ⟨hbd _ hkn y hybd, hyq⟩
    have hq_nq : q ∈ rest ++ queensOf mate (bd ((mate (q : ℤ)).toNat)) :=
      List.mem_append.mpr (Or.inr hq_qs)
    have hnq_le : ∀ y ∈ rest ++ queensOf mate (bd ((mate (q : ℤ)).toNat)),
        pr (y : ℤ) ≤ pr (q : ℤ) := by
      intro y hy
      rcases List.mem_append.mp hy with h1 | h2
      · exact hdom y (hrest_mem y h1)
      · exact hqs_le y h2
    have hO' : flowO pr n (rest ++ queensOf mate (bd ((mate (q : ℤ)).toNat))) = O := by
      rw [← hO, flowO, flowO]
      congr 1
      apply Finset.filter_congr
      intro p _
      constructor
      · rintro ⟨y, hy, hpy⟩
        exact ⟨q, hq_mem, le_trans hpy (hnq_le y hy)⟩
      · rintro ⟨y, hy, hpy⟩
        exact ⟨q, hq_nq, le_trans hpy (hdom y hy)⟩
    have hq_filter : q ∈ can.filter (fun y => y ∈ x :: xs ∧
        ∀ z ∈ x :: xs, pr (z : ℤ) ≤ pr (y : ℤ)) :=
      Finset.mem_filter.mpr ⟨hlive, hq_mem, hdom⟩
    have hL1 : 1 ≤ L := by
      rw [← hL, flowL]
      exact Finset.card_pos.mpr ⟨q, hq_filter⟩
    have hset : (can ∆ bd ((mate (q : ℤ)).toNat)).filter
          (fun y => y ∈ rest ++ queensOf mate (bd ((mate (q : ℤ)).toNat)) ∧
            ∀ z ∈ rest ++ queensOf mate (bd ((mate (q : ℤ)).toNat)),
              pr (z : ℤ) ≤ pr (y : ℤ)) =
        (can.filter (fun y => y ∈ x :: xs ∧
          ∀ z ∈ x :: xs, pr (z : ℤ) ≤ pr (y : ℤ))).erase q := by
      ext y
      rw [Finset.mem_filter, Finset.mem_erase, Finset.mem_filter,
        Finset.mem_symmDiff]
      constructor
      · rintro ⟨hcany, hynq, hydom⟩
        have hpqy : pr (q : ℤ) ≤ pr (y : ℤ) := hydom q hq_nq
        have hyne : y ≠ q := by
          rintro rfl
          rcases hcany with ⟨-, hnb⟩ | ⟨-, hnc⟩
          · exact hnb hqbd
          · exact hnc hlive
        have hyrest : y ∈ rest := by
          rcases List.mem_append.mp hynq with h1 | h2
          · exact h1
          · obtain ⟨hybd, hyq⟩ := (hqs_mem y).mp h2
            exact absurd hpqy (not_le.mpr (hdesc q hqn hqueen y hybd hyne hyq))
        have hynb : y ∉ bd ((mate (q : ℤ)).toNat) := by
          intro hybd
          obtain ⟨-, hyq⟩ := hQ y (hrest_mem y hyrest)
          exact absurd hpqy (not_le.mpr (hdesc q hqn hqueen y hybd hyne hyq))
        have hycan : y ∈ can := by
          rcases hcany with ⟨h1, -⟩ | ⟨h1, -⟩
          · exact h1
          · exact absurd h1 hynb
        refine ⟨hyne, hycan, hrest_mem y hyrest, ?_⟩
        intro z hz
        exact le_trans (hdom z hz) hpqy
      · rintro ⟨hyne, hycan, hymem, hydom⟩
        have hpqy : pr (q : ℤ) ≤ pr (y : ℤ) := hydom q hq_mem
        have hynb : y ∉ bd ((mate (q : ℤ)).toNat) := by
          intro hybd
          obtain ⟨-, hyq⟩ := hQ y hymem
          exact absurd hpqy (not_le.mpr (hdesc q hqn hqueen y hybd hyne hyq))
        have hyrest : y ∈ rest := by
          rw [hrest]
          exact (List.mem_erase_of_ne hyne).mpr hymem
        refine ⟨Or.inl ⟨hycan, hynb⟩, List.mem_append.mpr (Or.inl hyrest), ?_⟩
        intro z hz
        rcases List.mem_append.mp hz with h1 | h2
        · exact le_trans (hydom z (hrest_mem z h1)) (le_refl _)
        · exact le_trans (hqs_le z h2) hpqy
    have hL' : flowL pr (rest ++ queensOf mate (bd ((mate (q : ℤ)).toNat)))
        (can ∆ bd ((mate (q : ℤ)).toNat)) = L - 1 := by
      rw [flowL, hset, Finset.card_erase_of_mem hq_filter, ← hL, flowL]
    obtain ⟨fuel, r, hrec⟩ := ihL (L - 1) (by omega)
      (rest ++ queensOf mate (bd ((mate (q : ℤ)).toNat))).length
      (rest ++ queensOf mate (bd ((mate (q : ℤ)).toNat)))
      (can ∆ bd ((mate (q : ℤ)).toNat)) (gam ∆ {(mate (q : ℤ)).toNat})
      hQ' hO' hL' rfl
    refine ⟨fuel + 1, r, ?_⟩
    rw [flowLoop]
    simp only [hpop]
    rw [if_pos hlive]
    exact hrec
  · -- dead extraction: the queue shrinks
    by_cases hkeep : ∃ y ∈ rest, pr (q : ℤ) ≤ pr (y : ℤ)
    · -- the maximum survives: only the length decreases
      obtain ⟨w, hwr, hwp⟩ := hkeep
      have hQ' : ∀ y ∈ rest, y < n ∧ (y : ℤ) < mate (y : ℤ) :=
        fun y hy => hQ y (hrest_mem y hy)
      have hO' : flowO pr n rest = O := by
        rw [← hO, flowO, flowO]
        congr 1
        apply Finset.filter_congr
        intro p _
        constructor
        · rintro ⟨y, hy, hpy⟩
          exact ⟨y, hrest_mem y hy, hpy⟩
        · rintro ⟨y, hy, hpy⟩
          exact ⟨w, hwr, le_trans hpy (le_trans (hdom y hy) hwp)⟩
      have hL' : flowL pr rest can = L := by
        rw [← hL, flowL, flowL]
        congr 1
        apply Finset.filter_congr
        intro y hycan
        constructor
        · rintro ⟨hyr, hydom⟩
          refine ⟨hrest_mem y hyr, ?_⟩
          intro z hz
          exact le_trans (hdom z hz) (le_trans hwp (hydom w hwr))
        · rintro ⟨hymem, hydom⟩
          have hyne : y ≠ q := by
            rintro rfl
            exact hlive hycan
          refine ⟨?_, ?_⟩
          · rw [hrest]
            exact (List.mem_erase_of_ne hyne).mpr hymem
          · intro z hz
            exact hydom z (hrest_mem z hz)
      have hlen1 : 1 ≤ len := by
        rw [← hlen]
        simp [List.length_cons]
      have hlen' : rest.length = len - 1 := by
        rw [hrest, List.length_erase_of_mem hq_mem, hlen]
      obtain ⟨fuel, r, hrec⟩ := ihlen (len - 1) (by omega) rest can gam
        hQ' hO' hL' hlen'
      refine ⟨fuel + 1, r, ?_⟩
      rw [flowLoop]
      simp only [hpop]
      rw [if_neg hlive]
      exact hrec
    · -- the maximum drops: fewer priorities remain available
      push_neg at hkeep
      have hO' : flowO pr n rest < O := by
        rw [← hO, flowO, flowO]
        apply Finset.card_lt_card
        constructor
        · intro p hp
          rw [Finset.mem_filter] at hp ⊢
          obtain ⟨hpP, y, hy, hpy⟩ := hp
          exact ⟨hpP, y, hrest_mem y hy, hpy⟩
        · intro hcontra
          have hqP : pr (q : ℤ) ∈ (flowPrSet pr n).filter
              (fun p => ∃ y ∈ x :: xs, p ≤ pr (y : ℤ)) := by
            rw [Finset.mem_filter]
            refine ⟨?_, q, hq_mem, le_refl _⟩
            rw [flowPrSet, Finset.mem_image]
            exact ⟨q, Finset.mem_range.mpr hqn, rfl⟩
          have := hcontra hqP
          rw [Finset.mem_filter] at this
          obtain ⟨-, y, hy, hpy⟩ := this
          exact absurd hpy (not_le.mpr (hkeep y hy))
      obtain ⟨fuel, r, hrec⟩ := ihO (flowO pr n rest) hO'
        (flowL pr rest can) rest.length rest can gam
        (fun y hy => hQ y (hrest_mem y hy)) rfl rfl rfl
      refine ⟨fuel + 1, r, ?_⟩
      rw [flowLoop]
      simp only [hpop]
      rw [if_neg hlive]
      exact hrec

/-- Counterexample to claim C3 as stated: on the single-edge complex the
extracted queen `1` (of the pair with king `2`) is itself among the queens
newly pushed while its king's boundary is processed, with priority equal —
not strictly lower — to that of the extracted queen. -/
theorem flow_repush_counterexample :
    (1 : ℤ) < edgeMate 1 ∧
      1 ∈ queensOf edgeMate (edgeBd ((edgeMate 1).toNat)) ∧
      ¬ (∀ y ∈ queensOf edgeMate (edgeBd ((edgeMate 1).toNat)),
          edgePr (y : ℤ) < edgePr 1) := by decide

/-- Amended claim C3.  `MorseComplex::flow` terminates for every matching
whose queens lie in the boundary of their kings with strictly higher
priority than every other queen of that boundary (the priority assignments
of both backends): each iteration extracts one maximal-priority queen; the
extracted queen is re-pushed with equal priority but has left `canonical`,
every other newly pushed queen has strictly lower priority, and a
lexicographic measure decreases. -/
theorem flow_terminates (bd : ℕ → Finset ℕ) (mate pr : ℤ → ℤ) (n : ℕ)
    (hbd : ∀ x, x < n → ∀ y ∈ bd x, y < n)
    (hking : ∀ q : ℕ, q < n → (q : ℤ) < mate (q : ℤ) →
      (mate (q : ℤ)).toNat < n ∧ q ∈ bd ((mate (q : ℤ)).toNat))
    (hdesc : ∀ q : ℕ, q < n → (q : ℤ) < mate (q : ℤ) →
      ∀ y ∈ bd ((mate (q : ℤ)).toNat), y ≠ q → (y : ℤ) < mate (y : ℤ) →
        pr (y : ℤ) < pr (q : ℤ))
    (c : Finset ℕ) (hc : ∀ y ∈ c, y < n) :
    ∃ fuel r, flowModel bd mate pr fuel c = some r := by
  have hQ : ∀ y ∈ queensOf mate c, y < n ∧ (y : ℤ) < mate (y : ℤ) := by
    intro y hy
    rw [queensOf, mem_listOf, Finset.mem_filter] at hy
    exact ⟨hc y hy.1, hy.2⟩
  exact flowLoop_total bd mate pr n hbd hking hdesc
    (flowO pr n (queensOf mate c)) (flowL pr (queensOf mate c) c)
    (queensOf mate c).length (queensOf mate c) c ∅ hQ rfl rfl rfl

/-- Witness for the amended claim C3 on the single-edge complex: the flow of
the chain `{1}` terminates. -/
theorem flow_terminates_witness :
    ∃ fuel r, flowModel edgeBd edgeMate edgePr fuel {1} = some r :=
  flow_terminates edgeBd edgeMate edgePr 3
    (by intro x hx; interval_cases x <;> decide)
    (by intro q hq; interval_cases q <;> decide)
    (by intro q hq; interval_cases q <;> decide)
    {1} (by decide)

/-!
## The induced boundary squares to zero (claim C2)

`MorseComplex` sets `bd_[ace] = lower(base()->boundary(include({ace})))`
(MorseComplex.h, lines 43-46), i.e. the critical part of the canonical form
of the base boundary.  The proof that this operator squares to zero rests on
three facts about a flow output `(canonical, gamma)`: the flow law (claim
C1), that `canonical` contains no queens, and that `gamma` contains only
kings — together with the key combinatorial lemma that the boundary of a
nonempty chain of kings always contains a queen (the own queen of the king
whose own queen has maximal priority survives cancellation). -/

theorem symmDiff_cancel_right_fin (s t : Finset ℕ) : s ∆ t ∆ t = s := by
  ext y
  simp only [Finset.mem_symmDiff]
  tauto

theorem empty_symmDiff_fin (s : Finset ℕ) : ∅ ∆ s = s := by
  ext y
  simp [Finset.mem_symmDiff]

/-- `chainExt` only depends on the values over the chain. -/
theorem chainExt_congr (f g : ℕ → Finset ℕ) (c : Finset ℕ)
    (h : ∀ x ∈ c, f x = g x) : chainExt f c = chainExt g c := by
  unfold chainExt
  exact Finset.fold_congr h

/-- Filtering distributes into the GF(2) extension. -/
theorem chainExt_filter (f : ℕ → Finset ℕ) (p : ℕ → Prop) [DecidablePred p]
    (c : Finset ℕ) :
    (chainExt f c).filter p = chainExt (fun x => (f x).filter p) c := by
  induction c using Finset.induction with
  | empty => simp [chainExt_empty]
  | insert hx ih =>
    rename_i a s
    rw [chainExt_insert _ _ _ hx, chainExt_insert _ _ _ hx,
      filter_symmDiff_eq, ih]

/-- The GF(2) extension of a pointwise symmetric difference splits. -/
theorem chainExt_symmDiff_pointwise (f g : ℕ → Finset ℕ) (c : Finset ℕ) :
    chainExt (fun x => f x ∆ g x) c = chainExt f c ∆ chainExt g c := by
  induction c using Finset.induction with
  | empty => simp [chainExt_empty]
  | insert hx ih =>
    rename_i a s
    rw [chainExt_insert _ _ _ hx, chainExt_insert _ _ _ hx,
      chainExt_insert _ _ _ hx, ih]
    ext y
    simp only [Finset.mem_symmDiff]
    tauto

/-- Two GF(2) extensions compose. -/
theorem chainExt_chainExt (f F : ℕ → Finset ℕ) (c : Finset ℕ) :
    chainExt f (chainExt F c) = chainExt (fun b => chainExt f (F b)) c := by
  induction c using Finset.induction with
  | empty => simp [chainExt_empty]
  | insert hx ih =>
    rename_i a s
    rw [chainExt_insert _ _ _ hx, chainExt_insert _ _ _ hx,
      chainExt_symmDiff, ih]

/-- A member of the GF(2) extension is in the image of some chain cell. -/
theorem mem_chainExt_exists (f : ℕ → Finset ℕ) (c : Finset ℕ) (y : ℕ)
    (h : y ∈ chainExt f c) : ∃ x ∈ c, y ∈ f x := by
  rw [mem_chainExt] at h
  have hpos : 0 < (c.filter (fun x => y ∈ f x)).card := by
    rcases h with ⟨m, hm⟩
    omega
  obtain ⟨x, hx⟩ := Finset.card_pos.mp hpos
  rw [Finset.mem_filter] at hx
  exact ⟨x, hx.1, hx.2⟩

/-- Removing a filtered part by symmetric difference leaves the complement
filter. -/
theorem symmDiff_filter_not (s : Finset ℕ) (p : ℕ → Prop) [DecidablePred p] :
    s ∆ s.filter p = s.filter (fun x => ¬ p x) := by
  ext y
  simp only [Finset.mem_symmDiff, Finset.mem_filter]
  by_cases hy : p y <;> simp [hy]

/-- The GF(2) boundary of a single cell's boundary vanishes under the parity
form of `∂∂ = 0`. -/
theorem chainExt_bd_bd (bd : ℕ → Finset ℕ) (n : ℕ)
    (hbd : ∀ x, x < n → ∀ y ∈ bd x, y < n)
    (hdd : ∀ x, x < n → ∀ z, z < n →
      Even ((bd x).filter (fun q => z ∈ bd q)).card)
    (x : ℕ) (hx : x < n) : chainExt bd (bd x) = ∅ := by
  ext z
  rw [mem_chainExt]
  simp only [Finset.not_mem_empty, iff_false]
  intro hodd
  have hz : z < n := by
    have hpos : 0 < ((bd x).filter (fun q => z ∈ bd q)).card := by
      rcases hodd with ⟨m, hm⟩
      omega
    obtain ⟨q, hq⟩ := Finset.card_pos.mp hpos
    rw [Finset.mem_filter] at hq
    exact hbd q (hbd x hx q hq.1) z hq.2
  rw [Nat.odd_iff] at hodd
  have := hdd x hx z hz
  rw [Nat.even_iff] at this
  omega

/-- The GF(2) boundary of any boundary chain vanishes. -/
theorem chainExt_bd_bd_chain (bd : ℕ → Finset ℕ) (n : ℕ)
    (hbd : ∀ x, x < n → ∀ y ∈ bd x, y < n)
    (hdd : ∀ x, x < n → ∀ z, z < n →
      Even ((bd x).filter (fun q => z ∈ bd q)).card)
    (c : Finset ℕ) (hc : ∀ y ∈ c, y < n) :
    chainExt bd (chainExt bd c) = ∅ := by
  induction c using Finset.induction with
  | empty => simp [chainExt_empty]
  | insert hx ih =>
    rename_i a s
    rw [chainExt_insert _ _ _ hx, chainExt_symmDiff,
      chainExt_bd_bd bd n hbd hdd a (hc a (Finset.mem_insert_self a s)),
      ih (fun y hy => hc y (Finset.mem_insert_of_mem hy)),
      empty_symmDiff_fin]

/-- Cells of the GF(2) boundary of an in-range chain are in range. -/
theorem chainExt_bd_range (bd : ℕ → Finset ℕ) (n : ℕ)
    (hbd : ∀ x, x < n → ∀ y ∈ bd x, y < n)
    (c : Finset ℕ) (hc : ∀ y ∈ c, y < n) :
    ∀ z ∈ chainExt bd c, z < n := by
  intro z hz
  obtain ⟨x, hx, hzx⟩ := mem_chainExt_exists bd c z hz
  exact hbd x (hc x hx) z hzx

/-- The state invariants of the flow loop: the canonical chain stays in
range, every queen of the canonical chain has a pending queue entry, and
`gamma` holds kings of the range.  At termination the queue is empty, so
the final canonical chain is queen-free. -/
theorem flowLoop_state (bd : ℕ → Finset ℕ) (mate pr : ℤ → ℤ) (n : ℕ)
    (hbd : ∀ x, x < n → ∀ y ∈ bd x, y < n)
    (hqueen : ∀ q : ℕ, q < n → (q : ℤ) < mate (q : ℤ) →
      (mate (q : ℤ)).toNat < n ∧ q ∈ bd ((mate (q : ℤ)).toNat) ∧
        mate (mate (q : ℤ)) = (q : ℤ)) :
    ∀ (fuel : ℕ) (queue : List ℕ) (can gam can' gam' : Finset ℕ),
      (∀ y ∈ queue, y < n ∧ (y : ℤ) < mate (y : ℤ)) →
      (∀ y ∈ can, y < n) →
      (∀ y ∈ can, (y : ℤ) < mate (y : ℤ) → y ∈ queue) →
      (∀ k ∈ gam, k < n ∧ mate (k : ℤ) < (k : ℤ)) →
      flowLoop bd mate pr fuel queue can gam = some (can', gam') →
      (∀ y ∈ can', y < n) ∧
      (∀ y ∈ can', ¬ ((y : ℤ) < mate (y : ℤ))) ∧
      (∀ k ∈ gam', k < n ∧ mate (k : ℤ) < (k : ℤ)) := by
  intro fuel
  induction fuel with
  | zero =>
    intro queue can gam can' gam' hq hcr hqc hg h
    cases queue with
    | nil =>
      simp [flowLoop] at h
      rw [← h.1, ← h.2]
      exact ⟨hcr, fun y hy hqy => absurd (hqc y hy hqy) (by simp), hg⟩
    | cons x xs => simp [flowLoop] at h
  | succ fuel ih =>
    intro queue can gam can' gam' hq hcr hqc hg h
    cases queue with
    | nil =>
      simp [flowLoop] at h
      rw [← h.1, ← h.2]
      exact ⟨hcr, fun y hy hqy => absurd (hqc y hy hqy) (by simp), hg⟩
    | cons x xs =>
      rw [flowLoop] at h
      obtain ⟨q, rest, hpop⟩ : ∃ q rest, popMax pr (x :: xs) = some (q, rest) := by
        rw [popMax]
        exact ⟨_, _, rfl⟩
      obtain ⟨hq_mem, hrest, -⟩ := popMax_spec pr x xs q rest hpop
      obtain ⟨hqn, hqueen_q⟩ := hq q hq_mem
      have hrest_mem : ∀ y ∈ rest, y ∈ x :: xs := by
        rw [hrest]
        intro y hy
        exact List.mem_of_mem_erase hy
      simp only [hpop] at h
      by_cases hlive : q ∈ can
      · rw [if_pos hlive] at h
        obtain ⟨hkn, hqbd, hminv⟩ := hqueen q hqn hqueen_q
        have hqs_mem : ∀ y : ℕ, y ∈ queensOf mate (bd ((mate (q : ℤ)).toNat)) ↔
            y ∈ bd ((mate (q : ℤ)).toNat) ∧ (y : ℤ) < mate (y : ℤ) := by
          intro y
          rw [queensOf, mem_listOf, Finset.mem_filter]
        refine ih _ _ _ _ _ ?_ ?_ ?_ ?_ h
        · intro y hy
          rcases List.mem_append.mp hy with h1 | h2
          · exact hq y (hrest_mem y h1)
          · obtain ⟨hybd, hyq⟩ := (hqs_mem y).mp h2
            exact ⟨hbd _ hkn y hybd, hyq⟩
        · intro y hy
          rw [Finset.mem_symmDiff] at hy
          rcases hy with ⟨h1, -⟩ | ⟨h1, -⟩
          · exact hcr y h1
          · exact hbd _ hkn y h1
        · intro y hy hyq
          rw [Finset.mem_symmDiff] at hy
          rcases hy with ⟨h1, h2⟩ | ⟨h1, -⟩
          · have hyne : y ≠ q := by
              rintro rfl
              exact h2 hqbd
            have : y ∈ x :: xs := hqc y h1 hyq
            refine List.mem_append.mpr (Or.inl ?_)
            rw [hrest]
            exact (List.mem_erase_of_ne hyne).mpr this
          · exact List.mem_append.mpr (Or.inr ((hqs_mem y).mpr ⟨h1, hyq⟩))
        · intro k hk
          rw [Finset.mem_symmDiff] at hk
          rcases hk with ⟨h1, -⟩ | ⟨h1, -⟩
          · exact hg k h1
          · rw [Finset.mem_singleton] at h1
            subst h1
            have hcast : (((mate (q : ℤ)).toNat : ℕ) : ℤ) = mate (q : ℤ) := by
              have : (0 : ℤ) ≤ mate (q : ℤ) := by
                have : (0 : ℤ) ≤ (q : ℤ) := Int.ofNat_nonneg q
                omega
              omega
            refine ⟨hkn, ?_⟩
            rw [hcast, hminv]
            exact hqueen_q
      · rw [if_neg hlive] at h
        refine ih _ _ _ _ _ ?_ hcr ?_ hg h
        · intro y hy
          exact hq y (hrest_mem y hy)
        · intro y hy hyq
          have hyne : y ≠ q := by
            rintro rfl
            exact hlive hy
          have : y ∈ x :: xs := hqc y hy hyq
          rw [hrest]
          exact (List.mem_erase_of_ne hyne).mpr this

/-- The boundary of a nonempty chain of kings contains a queen: the own
queen of the king whose own queen has maximal priority appears in exactly
one boundary, since by the priority descent it cannot be a non-own queen of
any other king of the chain. -/
theorem king_chain_bd_queen (bd : ℕ → Finset ℕ) (mate pr : ℤ → ℤ) (n : ℕ)
    (hqueen : ∀ q : ℕ, q < n → (q : ℤ) < mate (q : ℤ) →
      (mate (q : ℤ)).toNat < n ∧ q ∈ bd ((mate (q : ℤ)).toNat) ∧
        mate (mate (q : ℤ)) = (q : ℤ))
    (hking2 : ∀ k : ℕ, k < n → mate (k : ℤ) < (k : ℤ) →
      ∃ q : ℕ, q < n ∧ (q : ℤ) < mate (q : ℤ) ∧ mate (q : ℤ) = (k : ℤ) ∧
        mate (k : ℤ) = (q : ℤ))
    (hdesc : ∀ q : ℕ, q < n → (q : ℤ) < mate (q : ℤ) →
      ∀ y ∈ bd ((mate (q : ℤ)).toNat), y ≠ q → (y : ℤ) < mate (y : ℤ) →
        pr (y : ℤ) < pr (q : ℤ))
    (mu : Finset ℕ) (hmu : ∀ k ∈ mu, k < n ∧ mate (k : ℤ) < (k : ℤ))
    (hne : mu.Nonempty) :
    ∃ q : ℕ, q ∈ chainExt bd mu ∧ (q : ℤ) < mate (q : ℤ) := by
  obtain ⟨k0, hk0mu, hmax⟩ :=
    Finset.exists_max_image mu (fun k => pr (mate (k : ℤ))) hne
  obtain ⟨hk0n, hk0king⟩ := hmu k0 hk0mu
  obtain ⟨q0, hq0n, hq0queen, hq0mate, hk0mate⟩ := hking2 k0 hk0n hk0king
  refine ⟨q0, ?_, hq0queen⟩
  rw [mem_chainExt]
  have hfilter : mu.filter (fun k => q0 ∈ bd k) = {k0} := by
    ext k
    rw [Finset.mem_filter, Finset.mem_singleton]
    constructor
    · rintro ⟨hkmu, hq0k⟩
      by_contra hne'
      obtain ⟨hkn, hkking⟩ := hmu k hkmu
      obtain ⟨qk, hqkn, hqkqueen, hqkmate, hkmate⟩ := hking2 k hkn hkking
      have hq0ne : q0 ≠ qk := by
        rintro rfl
        rw [hq0mate] at hqkmate
        exact hne' (by exact_mod_cast hqkmate.symm)
      have hcast : ((mate (qk : ℤ)).toNat : ℕ) = k := by
        rw [hqkmate]
        exact Int.toNat_natCast k
      have hlt := hdesc qk hqkn hqkqueen q0 (by rw [hcast]; exact hq0k)
        hq0ne hq0queen
      have h1 : pr (mate (k : ℤ)) ≤ pr (mate (k0 : ℤ)) := hmax k hkmu
      rw [hkmate, hk0mate] at h1
      omega
    · rintro rfl
      refine ⟨hk0mu, ?_⟩
      have hmem := (hqueen q0 hq0n hq0queen).2.1
      rw [hq0mate, Int.toNat_natCast] at hmem
      exact hmem
  rw [hfilter, Finset.card_singleton]
  exact odd_one

/-- Claim C2.  For every base complex with `∂∂ = 0`, every proper acyclic
matching — queens below their kings with the involution pairing, every
queen in its king's boundary, `x < mate(x)` and `mate(x) < x` marking
genuine pair members, and non-own queens of a king's boundary of strictly
lower priority, the invariants both backends establish — and every run of
the flows of `MorseComplex`'s constructor, the induced boundary operator
squares to zero: `M.boundary(M.boundary({a}))` is the empty chain for every
critical cell `a`. -/
theorem induced_boundary_squared
    (bd : ℕ → Finset ℕ) (mate pr : ℤ → ℤ) (n : ℕ)
    (hbd : ∀ x, x < n → ∀ y ∈ bd x, y < n)
    (hdd : ∀ x, x < n → ∀ z, z < n →
      Even ((bd x).filter (fun q => z ∈ bd q)).card)
    (hqueen : ∀ q : ℕ, q < n → (q : ℤ) < mate (q : ℤ) →
      (mate (q : ℤ)).toNat < n ∧ q ∈ bd ((mate (q : ℤ)).toNat) ∧
        mate (mate (q : ℤ)) = (q : ℤ))
    (hking2 : ∀ k : ℕ, k < n → mate (k : ℤ) < (k : ℤ) →
      ∃ q : ℕ, q < n ∧ (q : ℤ) < mate (q : ℤ) ∧ mate (q : ℤ) = (k : ℤ) ∧
        mate (k : ℤ) = (q : ℤ))
    (hdesc : ∀ q : ℕ, q < n → (q : ℤ) < mate (q : ℤ) →
      ∀ y ∈ bd ((mate (q : ℤ)).toNat), y ≠ q → (y : ℤ) < mate (y : ℤ) →
        pr (y : ℤ) < pr (q : ℤ))
    (a : ℕ) (ha : a < n) (_hacrit : mate (a : ℤ) = (a : ℤ))
    (fa : ℕ) (u ga : Finset ℕ)
    (hu : flowModel bd mate pr fa (bd a) = some (u, ga))
    (F : ℕ → ℕ) (w G : ℕ → Finset ℕ)
    (hw : ∀ b ∈ u.filter (fun (y : ℕ) => mate (y : ℤ) = (y : ℤ)),
      flowModel bd mate pr (F b) (bd b) = some (w b, G b)) :
    chainExt (fun b => (w b).filter (fun (y : ℕ) => mate (y : ℤ) = (y : ℤ)))
      (u.filter (fun (y : ℕ) => mate (y : ℤ) = (y : ℤ))) = ∅ := by
  have hstate : ∀ (fuel : ℕ) (c u' g' : Finset ℕ), (∀ y ∈ c, y < n) →
      flowModel bd mate pr fuel c = some (u', g') →
      (∀ y ∈ u', y < n) ∧ (∀ y ∈ u', ¬ ((y : ℤ) < mate (y : ℤ))) ∧
      (∀ k ∈ g', k < n ∧ mate (k : ℤ) < (k : ℤ)) ∧
      u' = c ∆ chainExt bd g' := by
    intro fuel c u' g' hc hflow
    have hlaw := flow_law bd mate pr fuel c u' g' hflow
    have heq : u' = c ∆ chainExt bd g' := by
      rw [← hlaw]
      exact (symmDiff_cancel_right_fin u' _).symm
    have hq0 : ∀ y ∈ queensOf mate c, y < n ∧ (y : ℤ) < mate (y : ℤ) := by
      intro y hy
      rw [queensOf, mem_listOf, Finset.mem_filter] at hy
      exact ⟨hc y hy.1, hy.2⟩
    have hqc0 : ∀ y ∈ c, (y : ℤ) < mate (y : ℤ) → y ∈ queensOf mate c := by
      intro y hy hyq
      rw [queensOf, mem_listOf, Finset.mem_filter]
      exact ⟨hy, hyq⟩
    obtain ⟨h1, h2, h3⟩ := flowLoop_state bd mate pr n hbd hqueen fuel
      (queensOf mate c) c ∅ u' g' hq0 hc hqc0 (by simp) hflow
    exact ⟨h1, h2, h3, heq⟩
  obtain ⟨hu_range, hu_qf, hga, hu_eq⟩ := hstate fa (bd a) u ga (hbd a ha) hu
  have hwfacts : ∀ b ∈ u.filter (fun (y : ℕ) => mate (y : ℤ) = (y : ℤ)),
      (∀ y ∈ w b, y < n) ∧ (∀ y ∈ w b, ¬ ((y : ℤ) < mate (y : ℤ))) ∧
      (∀ k ∈ G b, k < n ∧ mate (k : ℤ) < (k : ℤ)) ∧
      w b = bd b ∆ chainExt bd (G b) := by
    intro b hb
    have hbn : b < n := hu_range b (Finset.mem_filter.mp hb).1
    exact hstate (F b) (bd b) (w b) (G b) (hbd b hbn) (hw b hb)
  have hdu : chainExt bd u = ∅ := by
    rw [hu_eq, chainExt_symmDiff, chainExt_bd_bd bd n hbd hdd a ha,
      chainExt_bd_bd_chain bd n hbd hdd ga (fun k hk => (hga k hk).1),
      empty_symmDiff_fin]
  have hpart : u ∆ u.filter (fun (y : ℕ) => mate (y : ℤ) < (y : ℤ)) =
      u.filter (fun (y : ℕ) => mate (y : ℤ) = (y : ℤ)) := by
    rw [symmDiff_filter_not]
    apply Finset.filter_congr
    intro y hy
    have := hu_qf y hy
    constructor
    · intro h
      omega
    · intro h
      omega
  have hdpi : chainExt bd (u.filter (fun (y : ℕ) => mate (y : ℤ) = (y : ℤ))) =
      chainExt bd (u.filter (fun (y : ℕ) => mate (y : ℤ) < (y : ℤ))) := by
    rw [← hpart, chainExt_symmDiff, hdu, empty_symmDiff_fin]
  have hW : chainExt w (u.filter (fun (y : ℕ) => mate (y : ℤ) = (y : ℤ))) =
      chainExt bd (u.filter (fun (y : ℕ) => mate (y : ℤ) < (y : ℤ)) ∆
        chainExt G (u.filter (fun (y : ℕ) => mate (y : ℤ) = (y : ℤ)))) := by
    rw [chainExt_congr w (fun b => bd b ∆ chainExt bd (G b)) _
      (fun b hb => (hwfacts b hb).2.2.2)]
    rw [chainExt_symmDiff_pointwise, ← chainExt_chainExt, hdpi,
      ← chainExt_symmDiff]
  have hmukings : ∀ k ∈ u.filter (fun (y : ℕ) => mate (y : ℤ) < (y : ℤ)) ∆
      chainExt G (u.filter (fun (y : ℕ) => mate (y : ℤ) = (y : ℤ))),
      k < n ∧ mate (k : ℤ) < (k : ℤ) := by
    intro k hk
    rw [Finset.mem_symmDiff] at hk
    rcases hk with ⟨h1, -⟩ | ⟨h1, -⟩
    · rw [Finset.mem_filter] at h1
      exact ⟨hu_range k h1.1, h1.2⟩
    · obtain ⟨b, hb, hkb⟩ := mem_chainExt_exists _ _ _ h1
      exact (hwfacts b hb).2.2.1 k hkb
  have hWqf : ∀ y ∈ chainExt w (u.filter (fun (y : ℕ) => mate (y : ℤ) = (y : ℤ))),
      ¬ ((y : ℤ) < mate (y : ℤ)) := by
    intro y hy
    obtain ⟨b, hb, hyb⟩ := mem_chainExt_exists _ _ _ hy
    exact (hwfacts b hb).2.1 y hyb
  have hmuempty : u.filter (fun (y : ℕ) => mate (y : ℤ) < (y : ℤ)) ∆
      chainExt G (u.filter (fun (y : ℕ) => mate (y : ℤ) = (y : ℤ))) = ∅ := by
    by_contra hne
    obtain ⟨q0, hq0, hq0queen⟩ := king_chain_bd_queen bd mate pr n hqueen
      hking2 hdesc _ hmukings (Finset.nonempty_iff_ne_empty.mpr hne)
    rw [← hW] at hq0
    exact hWqf q0 hq0 hq0queen
  rw [← chainExt_filter, hW, hmuempty, chainExt_empty]
  exact Finset.filter_empty _

/-- Witness for claim C2: the identity matching (no pairs) on the
single-edge complex, with the critical edge `2` whose flow outputs are
computed concretely. -/
theorem induced_boundary_squared_witness :
    chainExt (fun _ => (∅ : Finset ℕ).filter (fun (y : ℕ) => (y : ℤ) = (y : ℤ)))
      (({0, 1} : Finset ℕ).filter (fun (y : ℕ) => (y : ℤ) = (y : ℤ))) = ∅ :=
  induced_boundary_squared edgeBd (fun x => x) (fun _ => 0) 3
    (by intro x hx; interval_cases x <;> decide)
    (by intro x hx z hz; interval_cases x <;> interval_cases z <;> decide)
    (by intro q hq hlt; interval_cases q <;> exact absurd hlt (by decide))
    (by intro k hk hlt; interval_cases k <;> exact absurd hlt (by decide))
    (by intro q hq hlt; interval_cases q <;> exact absurd hlt (by decide))
    2 (by decide) (by decide)
    0 {0, 1} ∅ (by decide)
    (fun _ => 0) (fun _ => ∅) (fun _ => ∅) (by decide)

end PyCHomP
